import Mathlib

/-!
# Fish completion generator (`fish_completions.go`)

A shallow embedding of the generator of fish shell completion scripts.

* A `*Command` is an address (`Ptr`) into a `Heap` of `Command` records, so that
  pointer comparisons (`rootCmd != cmd`, `currentCmd.Parent() == rootCmd`,
  `subCmd == cmd.helpCommand`) are comparisons of addresses and the parent
  back-reference is a field like any other.
* A `*bytes.Buffer` is the text written to it so far; a function that writes to
  the buffer takes the old text and returns the new one.
* The unbounded `for` loop of `subCommandPath` and the recursion of
  `writeFishCommandCompletion` take a fuel argument; a nil dereference and an
  exhausted fuel are reported as a `Fault`.
-/

namespace FishCompletions

/-- Address of a command: a non-nil `*Command`. -/
abbrev Ptr := Nat

/-- What stops a run without a result. -/
inductive Fault where
  | nilDereference
  | outOfFuel
  | invalidWriteCount
deriving DecidableEq, Repr

/-- A `pflag.Flag`, with the fields the generator reads. `ValueType` is
`flag.Value.Type()`; `nonCompletable` is what `nonCompletableFlag` answers. -/
structure Flag where
  Name : String
  Shorthand : String
  Usage : String
  ValueType : String
  nonCompletable : Bool
deriving DecidableEq, Repr

/-- A `Command`, with what the generator reads of it: the results of `Name()`,
`IsAvailableCommand()`, `Parent()` (`none` is nil), `Commands()`, the fields
`Short` and `helpCommand`, and the three flag sets, each as the list of its flags
in the order `VisitAll` visits them. -/
structure Command where
  Name : String
  Short : String
  IsAvailableCommand : Bool
  Parent : Option Ptr
  Commands : List Ptr
  helpCommand : Option Ptr
  NonInheritedFlags : List Flag
  InheritedFlags : List Flag
  LocalNonPersistentFlags : List Flag
deriving DecidableEq, Repr

/-- The commands in memory. -/
abbrev Heap := Ptr → Command

/-- The method `VisitAll` of a flag set: `fn` is called on every flag in the set's
visiting order; `s` is the state `fn` captures and updates. -/
def VisitAll {m : Type → Type} [Monad m] {σ : Type} (flags : List Flag)
    (fn : Flag → σ → m σ) (s : σ) : m σ :=
  flags.foldlM (fun s flag => fn flag s) s

/-- Modelled from the spec: `nonCompletableFlag` is declared outside this file;
the generator "only checks a boolean predicate supplied per flag", here the
field `nonCompletable`. -/
def nonCompletableFlag (flag : Flag) : Bool :=
  flag.nonCompletable

/-- Source lines 104-111: the callback runs on every listed subcommand that is
available and is not the help command of `cmd`, in listed order. -/
def rangeCommands {m : Type → Type} [Monad m] {σ : Type} (h : Heap) (cmd : Ptr)
    (callback : Ptr → σ → m σ) (s : σ) : m σ :=
  (h cmd).Commands.foldlM
    (fun s subCmd =>
      if !(h subCmd).IsAvailableCommand || decide (some subCmd = (h cmd).helpCommand) then
        pure s
      else
        callback subCmd s)
    s

/-- The `for` loop of `subCommandPath` (source lines 94-100), at most `fuel`
iterations. When `Parent()` is nil and `rootCmd` is not, `currentCmd` becomes nil
and `Name()` dereferences it as the next iteration starts: the nil dereference
is reported at once. -/
def subCommandPathLoop (h : Heap) (rootCmd : Ptr) :
    Nat → Ptr → List String → Except Fault String
  | 0, _, _ => .error .outOfFuel
  | fuel + 1, currentCmd, path =>
    let path := [(h currentCmd).Name] ++ path
    if (h currentCmd).Parent = some rootCmd then
      .ok (String.intercalate " " path)
    else
      match (h currentCmd).Parent with
      | none => .error .nilDereference
      | some parent => subCommandPathLoop h rootCmd fuel parent path

/-- Source lines 91-102. -/
def subCommandPath (h : Heap) (fuel : Nat) (rootCmd cmd : Ptr) : Except Fault String :=
  subCommandPathLoop h rootCmd fuel cmd []

/-- Source lines 84-89. -/
def flagRequiresArgumentCompletion (flag : Flag) : String :=
  if flag.ValueType ≠ "bool" then "-r" else ""

/-- Source lines 113-125. -/
def commandCompletionCondition (h : Heap) (fuel : Nat) (rootCmd cmd : Ptr) :
    Except Fault String := do
  let localNonPersistentFlags := (h cmd).LocalNonPersistentFlags
  let bareConditions : List String := []
  let bareConditions ←
    if rootCmd ≠ cmd then do
      let path ← subCommandPath h fuel rootCmd cmd
      pure (bareConditions ++ ["__fish_seen_subcommand_from " ++ path])
    else
      pure (bareConditions ++ ["__fish_" ++ (h rootCmd).Name ++ "_no_subcommand"])
  let bareConditions := Id.run (VisitAll localNonPersistentFlags
    (fun flag bareConditions =>
      pure (bareConditions ++
        ["not __fish_" ++ (h rootCmd).Name ++ "_has_flag " ++ flag.Name]))
    bareConditions)
  pure ("-n '" ++ String.intercalate "; and " bareConditions ++ "'")

/-- Source lines 127-133. -/
def completionCondition (h : Heap) (fuel : Nat) (rootCmd cmd : Ptr) : Except Fault String := do
  let condition := "-n '__fish_" ++ (h rootCmd).Name ++ "_no_subcommand'"
  if rootCmd ≠ cmd then
    let path ← subCommandPath h fuel rootCmd cmd
    pure ("-n '__fish_seen_subcommand_from " ++ path ++ "'")
  else
    pure condition

/-- Source lines 74-82. -/
def writeCommandFlagCompletion (h : Heap) (fuel : Nat) (rootCmd cmd : Ptr) (buf : String)
    (flag : Flag) : Except Fault String := do
  let shortHandPortion := if flag.Shorthand.utf8ByteSize > 0 then "-s " ++ flag.Shorthand else ""
  let condition ← completionCondition h fuel rootCmd cmd
  pure (buf ++ ("complete -c " ++ (h rootCmd).Name ++ " -f " ++ condition ++ " " ++
    flagRequiresArgumentCompletion flag ++ " " ++ shortHandPortion ++ " -l " ++ flag.Name ++
    " -d '" ++ flag.Usage ++ "'\n"))

/-- Source lines 59-72. -/
def writeCommandFlagsCompletion (h : Heap) (fuel : Nat) (rootCmd cmd : Ptr) (buf : String) :
    Except Fault String := do
  let buf ← VisitAll (h cmd).NonInheritedFlags
    (fun flag buf =>
      if nonCompletableFlag flag then pure buf
      else writeCommandFlagCompletion h fuel rootCmd cmd buf flag)
    buf
  VisitAll (h cmd).InheritedFlags
    (fun flag buf =>
      if nonCompletableFlag flag then pure buf
      else writeCommandFlagCompletion h fuel rootCmd cmd buf flag)
    buf

/-- Source lines 48-57. `pathFuel` bounds the loop of `subCommandPath`, the
other natural number the depth of the recursion. -/
def writeFishCommandCompletion (h : Heap) (pathFuel : Nat) :
    Nat → Ptr → Ptr → String → Except Fault String
  | 0, _, _, _ => .error .outOfFuel
  | fuel + 1, rootCmd, cmd, buf => do
    let buf ← rangeCommands h cmd
      (fun subCmd buf => do
        let condition ← commandCompletionCondition h pathFuel rootCmd cmd
        pure (buf ++ ("complete -c " ++ (h rootCmd).Name ++ " -f " ++ condition ++ " -a " ++
          (h subCmd).Name ++ " -d '" ++ (h subCmd).Short ++ "'\n")))
      buf
    let buf ← writeCommandFlagsCompletion h pathFuel rootCmd cmd buf
    rangeCommands h cmd
      (fun subCmd buf => writeFishCommandCompletion h pathFuel fuel rootCmd subCmd buf)
      buf

/-- Source lines 23-46. -/
def writeFishPreamble (h : Heap) (cmd : Ptr) (buf : String) : String :=
  let subCommandNames : List String := []
  let subCommandNames := Id.run (rangeCommands h cmd
    (fun subCmd subCommandNames => pure (subCommandNames ++ [(h subCmd).Name]))
    subCommandNames)
  buf ++ ("\nfunction __fish_" ++ (h cmd).Name ++
    "_no_subcommand --description 'Test if oly has yet to be given the subcommand'\n" ++
    "\tfor i in (commandline -opc)\n" ++
    "\t\tif contains -- $i " ++ String.intercalate " " subCommandNames ++ "\n" ++
    "\t\t\treturn 1\n" ++
    "\t\tend\n" ++
    "\tend\n" ++
    "\treturn 0\n" ++
    "end\n" ++
    "function __fish_" ++ (h cmd).Name ++ "_has_flag\n" ++
    "  for i in (commandline -opc)\n" ++
    "\t\tif contains -- \"--$1\" $i\n" ++
    "\t\t\treturn 0\n" ++
    "\t\tend\n" ++
    "\tend\n" ++
    "\treturn 1\n" ++
    "end\n")

/-- An `io.Writer`: what `Write` returns on the bytes handed to it, the count of
bytes written and the error (`none` is nil). -/
abbrev Writer := String → Int × Option String

/-- The error `io.ErrShortWrite`. -/
def ErrShortWrite : String := "short write"

/-- The method `WriteTo` of `bytes.Buffer`, from the standard library: a buffer
that is not empty is handed to `w` in one `Write`. The result is the list of
texts handed to `w` and the error returned. -/
def WriteTo (buf : String) (w : Writer) : Except Fault (List String × Option String) :=
  let nBytes : Int := buf.utf8ByteSize
  if nBytes > 0 then
    let (m, e) := w buf
    if m > nBytes then .error .invalidWriteCount
    else
      match e with
      | some err => .ok ([buf], some err)
      | none => if m ≠ nBytes then .ok ([buf], some ErrShortWrite) else .ok ([buf], none)
  else .ok ([], none)

/-- Source lines 13-21. The result is the list of texts handed to `w` and the
error returned. -/
def GenFishCompletion (h : Heap) (pathFuel fuel : Nat) (c : Ptr) (w : Writer) :
    Except Fault (List String × Option String) := do
  let buf := ""
  let buf := writeFishPreamble h c buf
  let buf ← writeFishCommandCompletion h pathFuel fuel c c buf
  WriteTo buf w

/-! ## Specification-side vocabulary

The definitions below are not translations of source functions: they name what
the statements talk about. -/

/-- The visible subcommands of `cmd`: listed by `cmd`, available, and not the
help command of `cmd`; in listed order. -/
def visibleCommands (h : Heap) (cmd : Ptr) : List Ptr :=
  (h cmd).Commands.filter
    (fun subCmd => (h subCmd).IsAvailableCommand && !decide (some subCmd = (h cmd).helpCommand))

/-- The completable flags of a flag set, in visiting order. -/
def completableFlags (flags : List Flag) : List Flag :=
  flags.filter (fun flag => !nonCompletableFlag flag)

/-- The subcommand line that offers `subCmd` under `condition`. -/
def subCommandLine (h : Heap) (rootCmd : Ptr) (condition : String) (subCmd : Ptr) : String :=
  "complete -c " ++ (h rootCmd).Name ++ " -f " ++ condition ++ " -a " ++ (h subCmd).Name ++
    " -d '" ++ (h subCmd).Short ++ "'\n"

/-- The flag line of `flag` under `condition`, with the marker field and the
shorthand portion as the specification words them. -/
def flagLine (h : Heap) (rootCmd : Ptr) (condition : String) (flag : Flag) : String :=
  "complete -c " ++ (h rootCmd).Name ++ " -f " ++ condition ++ " " ++
    (if flag.ValueType = "bool" then "" else "-r") ++ " " ++
    (if flag.Shorthand = "" then "" else "-s " ++ flag.Shorthand) ++
    " -l " ++ flag.Name ++ " -d '" ++ flag.Usage ++ "'\n"

/-- The negated check of `flag` in a subcommand-listing condition. -/
def negatedCheck (h : Heap) (rootCmd : Ptr) (flag : Flag) : String :=
  "not __fish_" ++ (h rootCmd).Name ++ "_has_flag " ++ flag.Name

/-- The heap `h` with the three flag sets of `cmd` replaced. -/
def setFlags (h : Heap) (cmd : Ptr) (nonInherited inherited localNonPersistent : List Flag) :
    Heap :=
  Function.update h cmd
    { h cmd with
      NonInheritedFlags := nonInherited
      InheritedFlags := inherited
      LocalNonPersistentFlags := localNonPersistent }

/-- The commands under `cmd` form a well-formed tree of height below `depth`:
the parent back-reference of every listed subcommand is the command that lists
it, and the same holds under every subcommand with one level less. -/
def wellFormed (h : Heap) : Nat → Ptr → Bool
  | 0, _ => false
  | depth + 1, cmd =>
    (h cmd).Commands.all
      (fun subCmd => decide ((h subCmd).Parent = some cmd) && wellFormed h depth subCmd)

/-- The list `chain` descends from `cmd`: its first command is listed by `cmd`
and every further one by the one before it. -/
def descends (h : Heap) : Ptr → List Ptr → Bool
  | _, [] => true
  | cmd, a :: rest => decide (a ∈ (h cmd).Commands) && descends h a rest

/-- A sink that takes every byte handed to it and reports no error. -/
def acceptAll : Writer := fun p => ((p.utf8ByteSize : Int), none)

/-! ## Example trees -/

/-- What the addresses outside an example tree hold. -/
def noCommand : Command := ⟨"", "", false, none, [], none, [], [], []⟩

/-- The flag `--output`/`-o` of the end-to-end example. -/
def outputFlag : Flag := ⟨"output", "o", "output path", "string", false⟩

/-- The tree of the end-to-end example: the root `app` at address 0 without
flags, its one subcommand `build` at address 1 with the one flag `outputFlag`. -/
def appBuild : Heap := fun p =>
  match p with
  | 0 => ⟨"app", "", true, none, [1], none, [], [], []⟩
  | 1 => ⟨"build", "Build the project", true, some 0, [], none, [outputFlag], [], [outputFlag]⟩
  | _ => noCommand

/-- A root `solo` at address 0 without subcommands and without flags. -/
def soloTree : Heap := fun p =>
  match p with
  | 0 => ⟨"solo", "Alone", true, none, [], none, [], [], []⟩
  | _ => noCommand

/-- The flag `--verbose`/`-v`, boolean and completable. -/
def verboseFlag : Flag := ⟨"verbose", "v", "be verbose", "bool", false⟩

/-- The root `app` at address 0 with the subcommand `child` at address 1 and the
one flag `verboseFlag`, declared on the root and not persistent. -/
def verboseTree : Heap := fun p =>
  match p with
  | 0 => ⟨"app", "", true, none, [1], none, [verboseFlag], [], [verboseFlag]⟩
  | 1 => ⟨"child", "A child", true, some 0, [], none, [], [], []⟩
  | _ => noCommand

/-- A tree with two levels and a help command: the root `tool` at address 0 lists
`remote` (1), the unavailable `legacy` (2), `build` (3) and its help command
`help` (4); `remote` lists `add` (5). -/
def toolTree : Heap := fun p =>
  match p with
  | 0 => ⟨"tool", "", true, none, [1, 2, 3, 4], some 4, [verboseFlag], [], [verboseFlag]⟩
  | 1 => ⟨"remote", "Manage remotes", true, some 0, [5], none, [], [outputFlag], []⟩
  | 2 => ⟨"legacy", "Old", false, some 0, [], none, [], [], []⟩
  | 3 => ⟨"build", "Build the project", true, some 0, [], none, [outputFlag], [], [outputFlag]⟩
  | 4 => ⟨"help", "Help about any command", true, some 0, [], none, [], [], []⟩
  | 5 => ⟨"add", "Add a remote", true, some 1, [], none, [], [], []⟩
  | _ => noCommand

/-! ## Vocabulary for the removal of a flag -/

/-- The first conjunct of both conditions of `cmd`. -/
def firstConjunct (h : Heap) (fuel : Nat) (rootCmd cmd : Ptr) : Except Fault String :=
  if rootCmd = cmd then .ok ("__fish_" ++ (h rootCmd).Name ++ "_no_subcommand")
  else (subCommandPath h fuel rootCmd cmd).map (fun path => "__fish_seen_subcommand_from " ++ path)

/-- The lines a command contributes itself: its subcommand lines, then its flag
lines. -/
def ownText (h : Heap) (pathFuel : Nat) (rootCmd cmd : Ptr) : Except Fault String := do
  let lines ← (visibleCommands h cmd).mapM
    (fun c => (commandCompletionCondition h pathFuel rootCmd cmd).map
      (fun condition => subCommandLine h rootCmd condition c))
  let flagLines ← writeCommandFlagsCompletion h pathFuel rootCmd cmd ""
  pure (String.join lines ++ flagLines)

/-- The traversal of the tree walker over the visible subcommands of `h`, with
the text of every command's own lines given by `own`: the own lines of a command,
then the texts of its visible subcommands in listed order. -/
def walk (h : Heap) (own : Ptr → Except Fault String) : Nat → Ptr → Except Fault String
  | 0, _ => .error .outOfFuel
  | fuel + 1, cmd => do
    let t ← own cmd
    let subtrees ← (visibleCommands h cmd).mapM (walk h own fuel)
    pure (t ++ String.join subtrees)

/-- The tree `h` with the flag named `verbose`, declared on `parent` and not
persistent, removed. Such a flag is one of the non-inherited and one of the local
non-persistent flags of `parent`, and no other command sees it: it leaves these
two flag sets of `parent`. -/
def removeVerbose (h : Heap) (parent : Ptr) : Heap :=
  setFlags h parent
    ((h parent).NonInheritedFlags.filter (fun flag => decide (flag.Name ≠ "verbose")))
    (h parent).InheritedFlags
    ((h parent).LocalNonPersistentFlags.filter (fun flag => decide (flag.Name ≠ "verbose")))

/-! ## Vocabulary for the later statements -/

/-- The single quote character. -/
def quoteChar : Char := Char.ofNat 39

/-- The newline character. -/
def newlineChar : Char := Char.ofNat 10

/-- The space character. -/
def spaceChar : Char := Char.ofNat 32

/-- A flag whose usage text holds a single quote. -/
def quoteFlag : Flag := ⟨"force", "", "don't ask", "bool", false⟩

/-- The root `app` at address 0 with the flag `quoteFlag` and the subcommand
`init` at address 1, whose short description holds a single quote. -/
def quoteTree : Heap := fun p =>
  match p with
  | 0 => ⟨"app", "", true, none, [1], none, [quoteFlag], [], []⟩
  | 1 => ⟨"init", "Don't panic", true, some 0, [], none, [], [], []⟩
  | _ => noCommand

/-- The commands on which `writeFishCommandCompletion` is invoked when it starts
on `cmd`, in the order of the invocations: `cmd`, then (source lines 54-56) the
invocations for its visible subcommands in listed order. -/
def visited (h : Heap) : Nat → Ptr → List Ptr
  | 0, _ => []
  | fuel + 1, cmd => cmd :: (visibleCommands h cmd).flatMap (visited h fuel)

/-- The second argument of the invocation of `subCommandPath` that one call of
`commandCompletionCondition` or `completionCondition` makes: source lines 117
and 130 are reached only in the branch `rootCmd != cmd`. -/
def conditionPathCalls (rootCmd cmd : Ptr) : List Ptr :=
  if rootCmd ≠ cmd then [cmd] else []

/-- The second arguments of the invocations of `subCommandPath` that
`writeFishCommandCompletion` makes on `cmd`, in order: one condition per visible
subcommand (source line 50), one per completable flag, non-inherited then
inherited (source line 79), then the invocations of the recursive calls. -/
def subCommandPathCalls (h : Heap) : Nat → Ptr → Ptr → List Ptr
  | 0, _, _ => []
  | fuel + 1, rootCmd, cmd =>
    (visibleCommands h cmd).flatMap (fun _ => conditionPathCalls rootCmd cmd) ++
    (completableFlags (h cmd).NonInheritedFlags ++
      completableFlags (h cmd).InheritedFlags).flatMap (fun _ => conditionPathCalls rootCmd cmd) ++
    (visibleCommands h cmd).flatMap (subCommandPathCalls h fuel rootCmd)

/-- The list `chain` descends from `cmd` through visible subcommands only. -/
def visiblyDescends (h : Heap) : Ptr → List Ptr → Bool
  | _, [] => true
  | cmd, a :: rest => decide (a ∈ visibleCommands h cmd) && visiblyDescends h a rest

/-- A chain of three commands: the root `tool` at address 0 lists `remote` (1),
which lists `add` (2), which has the one flag `outputFlag`. -/
def deepTree : Heap := fun p =>
  match p with
  | 0 => ⟨"tool", "", true, none, [1], none, [], [], []⟩
  | 1 => ⟨"remote", "Manage remotes", true, some 0, [2], none, [], [], []⟩
  | 2 => ⟨"add", "Add a remote", true, some 1, [], none, [outputFlag], [], [outputFlag]⟩
  | _ => noCommand

/-- The tree `h` with `child` taken out of the subcommands that `node` lists. -/
def removeChild (h : Heap) (node child : Ptr) : Heap :=
  Function.update h node
    { h node with Commands := (h node).Commands.filter (fun c => decide (c ≠ child)) }

/-- The text `s` holds no newline. -/
def noNewline (s : String) : Prop := newlineChar ∉ s.data

/-- No name, short description, shorthand or usage text in the tree holds a
newline. -/
def cleanTexts (h : Heap) : Prop :=
  ∀ p, noNewline (h p).Name ∧ noNewline (h p).Short ∧
    ∀ flag, flag ∈ (h p).NonInheritedFlags ++ (h p).InheritedFlags ++
        (h p).LocalNonPersistentFlags →
      noNewline flag.Name ∧ noNewline flag.Shorthand ∧ noNewline flag.Usage

/-- The text `line` is one line, newline at its end only, that registers a
completion for the command named `rootName`. -/
def isRegistrationLine (rootName line : String) : Prop :=
  ∃ body, line = "complete -c " ++ rootName ++ " -f -n '" ++ body ++ "\n" ∧
    noNewline ("complete -c " ++ rootName ++ " -f -n '" ++ body)

/-- The number of lines of a text in which every line ends with a newline. -/
def lineCount (s : String) : Nat := s.data.count newlineChar

/-- The number of completable flags of `cmd`, non-inherited and inherited. -/
def flagLineCount (h : Heap) (cmd : Ptr) : Nat :=
  (completableFlags (h cmd).NonInheritedFlags).length +
    (completableFlags (h cmd).InheritedFlags).length

/-- The text `s` holds no space. -/
def noSpace (s : String) : Prop := spaceChar ∉ s.data

/-- The names of the subcommands that one command lists are pairwise distinct. -/
def distinctSiblingNames (h : Heap) : Prop :=
  ∀ p a b, a ∈ (h p).Commands → b ∈ (h p).Commands → (h a).Name = (h b).Name → a = b

/-! ## Theorems -/

/-! ### Texts -/

theorem join_nil : String.join [] = "" := rfl

theorem join_cons (a : String) (l : List String) : String.join (a :: l) = a ++ String.join l := by
  apply String.ext
  simp [String.data_join]

theorem join_append (l₁ l₂ : List String) :
    String.join (l₁ ++ l₂) = String.join l₁ ++ String.join l₂ := by
  apply String.ext
  simp [String.data_join]

theorem intercalate_go_eq (acc s : String) (l : List String) :
    String.intercalate.go acc s l = acc ++ String.join (l.map (fun a => s ++ a)) := by
  induction l generalizing acc with
  | nil => simp [String.intercalate.go, join_nil]
  | cons a l ih => simp [String.intercalate.go, ih, join_cons, String.append_assoc]

theorem intercalate_cons (s a : String) (l : List String) :
    String.intercalate s (a :: l) = a ++ String.join (l.map (fun b => s ++ b)) := by
  simp [String.intercalate, intercalate_go_eq]

/-! ### The two iterators -/

theorem foldlM_skip {m : Type → Type} [Monad m] [LawfulMonad m] {σ α : Type} (p : α → Bool)
    (callback : α → σ → m σ) (l : List α) (s : σ) :
    l.foldlM (fun s a => if p a then pure s else callback a s) s =
      (l.filter (fun a => !p a)).foldlM (fun s a => callback a s) s := by
  induction l generalizing s with
  | nil => simp
  | cons a l ih =>
    cases hp : p a <;> simp [List.filter_cons, hp, ih]

theorem rangeCommands_eq {m : Type → Type} [Monad m] [LawfulMonad m] {σ : Type} (h : Heap)
    (cmd : Ptr) (callback : Ptr → σ → m σ) (s : σ) :
    rangeCommands h cmd callback s = (visibleCommands h cmd).foldlM (fun s c => callback c s) s := by
  unfold rangeCommands visibleCommands
  rw [foldlM_skip
    (fun subCmd => !(h subCmd).IsAvailableCommand || decide (some subCmd = (h cmd).helpCommand))]
  congr 1
  apply List.filter_congr
  intro x _
  cases (h x).IsAvailableCommand <;> simp

theorem visitAll_collect {α : Type} (g : Flag → α) (flags : List Flag) (init : List α) :
    Id.run (VisitAll flags (fun flag acc => pure (acc ++ [g flag])) init) =
      init ++ flags.map g := by
  unfold VisitAll
  induction flags generalizing init with
  | nil => simp [Id.run]
  | cons a l ih =>
    have := ih (init ++ [g a])
    simp [Id.run] at this ⊢
    exact this

theorem commandCompletionCondition_eq (h : Heap) (fuel : Nat) (rootCmd cmd : Ptr) :
    commandCompletionCondition h fuel rootCmd cmd =
      (if rootCmd = cmd then
          Except.ok ("__fish_" ++ (h rootCmd).Name ++ "_no_subcommand")
        else
          (subCommandPath h fuel rootCmd cmd).map
            (fun path => "__fish_seen_subcommand_from " ++ path)).map
        (fun first => "-n '" ++ String.intercalate "; and "
          (first :: (h cmd).LocalNonPersistentFlags.map
            (fun f => "not __fish_" ++ (h rootCmd).Name ++ "_has_flag " ++ f.Name)) ++ "'") := by
  unfold commandCompletionCondition
  by_cases hrc : rootCmd = cmd
  · simp only [hrc, visitAll_collect, ne_eq, not_true_eq_false, if_false, if_true]
    simp [Except.map, bind, Except.bind, pure, Except.pure]
  · simp only [hrc, visitAll_collect, if_neg, ne_eq, not_false_eq_true, if_true]
    cases subCommandPath h fuel rootCmd cmd <;>
      simp [Except.map, bind, Except.bind, pure, Except.pure]

theorem subCommandPathLoop_congr (h₁ h₂ : Heap) (rootCmd : Ptr)
    (hn : ∀ p, (h₁ p).Name = (h₂ p).Name) (hp : ∀ p, (h₁ p).Parent = (h₂ p).Parent)
    (fuel : Nat) (cmd : Ptr) (path : List String) :
    subCommandPathLoop h₁ rootCmd fuel cmd path = subCommandPathLoop h₂ rootCmd fuel cmd path := by
  induction fuel generalizing cmd path with
  | zero => rfl
  | succ n ih =>
    simp only [subCommandPathLoop, hn, hp]
    split
    · rfl
    · split
      · rfl
      · exact ih _ _

theorem completionCondition_congr (h₁ h₂ : Heap)
    (hn : ∀ p, (h₁ p).Name = (h₂ p).Name) (hp : ∀ p, (h₁ p).Parent = (h₂ p).Parent)
    (fuel : Nat) (rootCmd cmd : Ptr) :
    completionCondition h₁ fuel rootCmd cmd = completionCondition h₂ fuel rootCmd cmd := by
  simp only [completionCondition, subCommandPath, subCommandPathLoop_congr h₁ h₂ rootCmd hn hp, hn]

theorem completionCondition_eq (h : Heap) (fuel : Nat) (rootCmd cmd : Ptr) :
    completionCondition h fuel rootCmd cmd =
      if rootCmd = cmd then
        Except.ok ("-n '__fish_" ++ (h rootCmd).Name ++ "_no_subcommand'")
      else
        (subCommandPath h fuel rootCmd cmd).map
          (fun path => "-n '__fish_seen_subcommand_from " ++ path ++ "'") := by
  unfold completionCondition
  by_cases hrc : rootCmd = cmd
  · simp [hrc, pure, Except.pure]
  · simp only [hrc, if_neg, ne_eq, not_false_eq_true, if_true]
    cases subCommandPath h fuel rootCmd cmd <;>
      simp [Except.map, bind, Except.bind, pure, Except.pure]


theorem utf8ByteSize_pos_iff (s : String) : s.utf8ByteSize > 0 ↔ s ≠ "" := by
  rcases s with ⟨l⟩
  cases l with
  | nil => simp [String.utf8ByteSize, String.utf8ByteSize.go]
  | cons c cs =>
    have hc := c.utf8Size_pos
    constructor
    · intro _ hh
      have := congrArg String.data hh
      simp at this
    · intro _
      simp only [String.utf8ByteSize, String.utf8ByteSize.go]
      omega

theorem writeCommandFlagCompletion_eq (h : Heap) (fuel : Nat) (rootCmd cmd : Ptr) (buf : String)
    (flag : Flag) :
    writeCommandFlagCompletion h fuel rootCmd cmd buf flag =
      (completionCondition h fuel rootCmd cmd).map
        (fun condition => buf ++ flagLine h rootCmd condition flag) := by
  unfold writeCommandFlagCompletion flagLine flagRequiresArgumentCompletion
  have hs : (if flag.Shorthand.utf8ByteSize > 0 then "-s " ++ flag.Shorthand else "") =
      (if flag.Shorthand = "" then "" else "-s " ++ flag.Shorthand) := by
    by_cases hh : flag.Shorthand = ""
    · simp [hh, String.utf8ByteSize, String.utf8ByteSize.go]
    · simp [hh, (utf8ByteSize_pos_iff flag.Shorthand).2 hh]
  have hm : (if flag.ValueType ≠ "bool" then "-r" else "") =
      (if flag.ValueType = "bool" then "" else "-r") := by
    by_cases hh : flag.ValueType = "bool" <;> simp [hh]
  simp only [hs, hm]
  cases completionCondition h fuel rootCmd cmd <;>
    simp [Except.map, bind, Except.bind, pure, Except.pure]

/-- C5. The field of a flag line between the condition and the shorthand portion
is `-r` exactly when the value type of the flag is not `bool`, and empty exactly
when it is `bool`; that field is what `flagRequiresArgumentCompletion` returns. -/
theorem flag_line_marker (h : Heap) (fuel : Nat) (rootCmd cmd : Ptr) (buf : String)
    (flag : Flag) :
    ∃ marker : String,
      (marker = "-r" ↔ flag.ValueType ≠ "bool") ∧
      (marker = "" ↔ flag.ValueType = "bool") ∧
      marker = flagRequiresArgumentCompletion flag ∧
      writeCommandFlagCompletion h fuel rootCmd cmd buf flag =
        (completionCondition h fuel rootCmd cmd).map
          (fun condition => buf ++ ("complete -c " ++ (h rootCmd).Name ++ " -f " ++ condition ++
            " " ++ marker ++ " " ++
            (if flag.Shorthand = "" then "" else "-s " ++ flag.Shorthand) ++
            " -l " ++ flag.Name ++ " -d '" ++ flag.Usage ++ "'\n")) := by
  refine ⟨flagRequiresArgumentCompletion flag, ?_, ?_, rfl, ?_⟩
  · unfold flagRequiresArgumentCompletion
    by_cases hh : flag.ValueType = "bool" <;> simp [hh]
  · unfold flagRequiresArgumentCompletion
    by_cases hh : flag.ValueType = "bool" <;> simp [hh]
  · rw [writeCommandFlagCompletion_eq]
    unfold flagLine flagRequiresArgumentCompletion
    by_cases hh : flag.ValueType = "bool" <;> simp [hh]

theorem setFlags_Name (h : Heap) (cmd : Ptr) (f₁ f₂ f₃ : List Flag) (p : Ptr) :
    (setFlags h cmd f₁ f₂ f₃ p).Name = (h p).Name := by
  unfold setFlags
  by_cases hp : p = cmd
  · subst hp; simp
  · simp [Function.update_noteq hp]

theorem setFlags_Parent (h : Heap) (cmd : Ptr) (f₁ f₂ f₃ : List Flag) (p : Ptr) :
    (setFlags h cmd f₁ f₂ f₃ p).Parent = (h p).Parent := by
  unfold setFlags
  by_cases hp : p = cmd
  · subst hp; simp
  · simp [Function.update_noteq hp]

theorem setFlags_same (h : Heap) (cmd : Ptr) (f₁ f₂ f₃ : List Flag) :
    (setFlags h cmd f₁ f₂ f₃ cmd).NonInheritedFlags = f₁ ∧
    (setFlags h cmd f₁ f₂ f₃ cmd).InheritedFlags = f₂ ∧
    (setFlags h cmd f₁ f₂ f₃ cmd).LocalNonPersistentFlags = f₃ := by
  simp [setFlags]

theorem subCommandPath_setFlags (h : Heap) (cmd : Ptr) (f₁ f₂ f₃ : List Flag) (fuel : Nat)
    (rootCmd c : Ptr) :
    subCommandPath (setFlags h cmd f₁ f₂ f₃) fuel rootCmd c = subCommandPath h fuel rootCmd c :=
  subCommandPathLoop_congr _ _ rootCmd (setFlags_Name h cmd f₁ f₂ f₃)
    (setFlags_Parent h cmd f₁ f₂ f₃) fuel c []

/-- C3. The flag-listing condition does not depend on the flag sets of `cmd`;
it is the subcommand-listing condition of `cmd` with the local non-persistent
flags emptied; it is `-n '__fish_<root>_no_subcommand'` at the root and
`-n '__fish_seen_subcommand_from <subCommandPath>'` elsewhere. -/
theorem completionCondition_omits_negations (h : Heap) (fuel : Nat) (rootCmd cmd : Ptr) :
    (∀ f₁ f₂ f₃ : List Flag,
      completionCondition (setFlags h cmd f₁ f₂ f₃) fuel rootCmd cmd =
        completionCondition h fuel rootCmd cmd) ∧
    completionCondition h fuel rootCmd cmd =
      commandCompletionCondition
        (setFlags h cmd (h cmd).NonInheritedFlags (h cmd).InheritedFlags []) fuel rootCmd cmd ∧
    completionCondition h fuel rootCmd cmd =
      (if rootCmd = cmd then
        Except.ok ("-n '__fish_" ++ (h rootCmd).Name ++ "_no_subcommand'")
      else
        (subCommandPath h fuel rootCmd cmd).map
          (fun path => "-n '__fish_seen_subcommand_from " ++ path ++ "'")) := by
  refine ⟨fun f₁ f₂ f₃ => ?_, ?_, completionCondition_eq h fuel rootCmd cmd⟩
  · exact completionCondition_congr _ _ (setFlags_Name h cmd f₁ f₂ f₃)
      (setFlags_Parent h cmd f₁ f₂ f₃) fuel rootCmd cmd
  · rw [commandCompletionCondition_eq, completionCondition_eq, subCommandPath_setFlags,
      (setFlags_same h cmd _ _ _).2.2, setFlags_Name]
    have e₁ : "-n '__fish_" = "-n '" ++ "__fish_" := by decide
    have e₂ : "-n '__fish_seen_subcommand_from " = "-n '" ++ "__fish_seen_subcommand_from " := by
      decide
    by_cases hrc : rootCmd = cmd
    · simp [hrc, Except.map, intercalate_cons, join_nil, String.append_assoc]
      rw [e₁, String.append_assoc]
    · simp only [hrc, if_false]
      cases subCommandPath h fuel rootCmd cmd with
      | error e => simp [Except.map]
      | ok path =>
        simp [Except.map, intercalate_cons, join_nil, String.append_assoc]
        rw [e₂, String.append_assoc]

/-! ### Writing to the buffer -/

theorem foldlM_append_text {α ε : Type} (f : α → Except ε String) (l : List α) (buf : String) :
    l.foldlM (fun buf a => (f a).map (fun t => buf ++ t)) buf =
      (l.mapM f).map (fun ts => buf ++ String.join ts) := by
  induction l generalizing buf with
  | nil =>
    rw [List.mapM_nil, List.foldlM_nil]
    simp [Except.map, pure, Except.pure, join_nil]
  | cons a l ih =>
    rw [List.foldlM_cons, List.mapM_cons]
    cases hfa : f a with
    | error e => simp [Except.map, bind, Except.bind]
    | ok t =>
      simp only [Except.map, bind, Except.bind]
      have := ih (buf ++ t)
      simp only [Except.map] at this
      rw [this]
      cases l.mapM f <;> simp [Except.map, pure, Except.pure, join_cons, String.append_assoc]

theorem mapM_const_ok {α β ε : Type} (b : β) (g : β → α → String) (l : List α) :
    l.mapM (fun a => (Except.ok b : Except ε β).map (fun b => g b a)) = .ok (l.map (g b)) := by
  induction l with
  | nil => rw [List.mapM_nil]; rfl
  | cons a l ih =>
    rw [List.mapM_cons, ih]
    rfl

theorem mapM_const_error {α β ε : Type} (e : ε) (g : β → α → String) (l : List α) :
    l.mapM (fun a => (Except.error e : Except ε β).map (fun b => g b a)) =
      if l.isEmpty then .ok [] else .error e := by
  cases l with
  | nil => rw [List.mapM_nil]; rfl
  | cons a l => rw [List.mapM_cons]; rfl

theorem visitAll_flags_eq (h : Heap) (fuel : Nat) (rootCmd cmd : Ptr) (flags : List Flag)
    (buf : String) :
    VisitAll flags
        (fun flag buf =>
          if nonCompletableFlag flag then pure buf
          else writeCommandFlagCompletion h fuel rootCmd cmd buf flag)
        buf =
      ((completableFlags flags).mapM
        (fun flag => (completionCondition h fuel rootCmd cmd).map
          (fun condition => flagLine h rootCmd condition flag))).map
        (fun ts => buf ++ String.join ts) := by
  unfold VisitAll completableFlags
  rw [foldlM_skip nonCompletableFlag, ← foldlM_append_text]
  congr 1
  funext buf flag
  rw [writeCommandFlagCompletion_eq]
  cases completionCondition h fuel rootCmd cmd <;> simp [Except.map]

theorem writeCommandFlagsCompletion_eq (h : Heap) (fuel : Nat) (rootCmd cmd : Ptr) (buf : String) :
    writeCommandFlagsCompletion h fuel rootCmd cmd buf =
      match completionCondition h fuel rootCmd cmd with
      | .ok condition =>
        .ok (buf ++ String.join
          ((completableFlags (h cmd).NonInheritedFlags ++
            completableFlags (h cmd).InheritedFlags).map (flagLine h rootCmd condition)))
      | .error e =>
        if completableFlags (h cmd).NonInheritedFlags ++
            completableFlags (h cmd).InheritedFlags = [] then .ok buf
        else .error e := by
  unfold writeCommandFlagsCompletion
  simp only [visitAll_flags_eq]
  cases completionCondition h fuel rootCmd cmd with
  | ok c =>
    simp only [mapM_const_ok]
    simp [Except.map, bind, Except.bind, join_append, String.append_assoc]
  | error e =>
    simp only [mapM_const_error]
    cases h₁ : completableFlags (h cmd).NonInheritedFlags with
    | nil =>
      cases h₂ : completableFlags (h cmd).InheritedFlags with
      | nil => simp [Except.map, bind, Except.bind, join_nil]
      | cons a l => simp [Except.map, bind, Except.bind, join_nil]
    | cons a l => simp [Except.map, bind, Except.bind]

theorem writeCommandFlagsCompletion_buf (h : Heap) (fuel : Nat) (rootCmd cmd : Ptr)
    (buf : String) :
    writeCommandFlagsCompletion h fuel rootCmd cmd buf =
      (writeCommandFlagsCompletion h fuel rootCmd cmd "").map (fun t => buf ++ t) := by
  simp only [writeCommandFlagsCompletion_eq]
  cases completionCondition h fuel rootCmd cmd with
  | ok c => simp [Except.map]
  | error e =>
    by_cases hh : completableFlags (h cmd).NonInheritedFlags ++
        completableFlags (h cmd).InheritedFlags = []
    · simp only [hh, if_true]; simp [Except.map]
    · simp only [hh, if_false]; simp [Except.map]

theorem writeFishCommandCompletion_succ (h : Heap) (pathFuel fuel : Nat) (rootCmd cmd : Ptr)
    (buf : String) :
    writeFishCommandCompletion h pathFuel (fuel + 1) rootCmd cmd buf =
      ((visibleCommands h cmd).foldlM
        (fun buf c => (commandCompletionCondition h pathFuel rootCmd cmd).map
          (fun condition => buf ++ subCommandLine h rootCmd condition c)) buf >>= fun buf =>
        writeCommandFlagsCompletion h pathFuel rootCmd cmd buf >>= fun buf =>
          (visibleCommands h cmd).foldlM
            (fun buf c => writeFishCommandCompletion h pathFuel fuel rootCmd c buf) buf) := by
  rw [writeFishCommandCompletion]
  simp only [rangeCommands_eq]
  congr 2

theorem writeFishCommandCompletion_step (h : Heap) (pathFuel fuel : Nat) (rootCmd : Ptr)
    (hrec : ∀ (c : Ptr) (buf : String),
      writeFishCommandCompletion h pathFuel fuel rootCmd c buf =
        (writeFishCommandCompletion h pathFuel fuel rootCmd c "").map (fun t => buf ++ t))
    (cmd : Ptr) (buf : String) :
    writeFishCommandCompletion h pathFuel (fuel + 1) rootCmd cmd buf =
      ((visibleCommands h cmd).mapM
        (fun c => (commandCompletionCondition h pathFuel rootCmd cmd).map
          (fun condition => subCommandLine h rootCmd condition c)) >>= fun lines =>
        writeCommandFlagsCompletion h pathFuel rootCmd cmd "" >>= fun flagLines =>
          (visibleCommands h cmd).mapM
            (fun c => writeFishCommandCompletion h pathFuel fuel rootCmd c "") >>= fun subtrees =>
            pure (buf ++ (String.join lines ++ flagLines ++ String.join subtrees))) := by
  rw [writeFishCommandCompletion_succ]
  have e₁ : (fun (buf : String) (c : Ptr) =>
      (commandCompletionCondition h pathFuel rootCmd cmd).map
        (fun condition => buf ++ subCommandLine h rootCmd condition c)) =
      (fun buf c => ((commandCompletionCondition h pathFuel rootCmd cmd).map
        (fun condition => subCommandLine h rootCmd condition c)).map (fun t => buf ++ t)) := by
    funext buf c
    cases commandCompletionCondition h pathFuel rootCmd cmd <;> rfl
  have e₂ : (fun (buf : String) (c : Ptr) =>
      writeFishCommandCompletion h pathFuel fuel rootCmd c buf) =
      (fun buf c => (writeFishCommandCompletion h pathFuel fuel rootCmd c "").map
        (fun t => buf ++ t)) := by
    funext buf c
    exact hrec c buf
  rw [e₁, e₂, foldlM_append_text]
  simp only [foldlM_append_text]
  cases (visibleCommands h cmd).mapM
      (fun c => (commandCompletionCondition h pathFuel rootCmd cmd).map
        (fun condition => subCommandLine h rootCmd condition c)) with
  | error e => rfl
  | ok lines =>
    simp only [Except.map, bind, Except.bind]
    rw [writeCommandFlagsCompletion_buf]
    cases writeCommandFlagsCompletion h pathFuel rootCmd cmd "" with
    | error e => rfl
    | ok flagLines =>
      simp only [Except.map]
      cases (visibleCommands h cmd).mapM
          (fun c => writeFishCommandCompletion h pathFuel fuel rootCmd c "") with
      | error e => rfl
      | ok subtrees => simp [pure, Except.pure, String.append_assoc]

theorem writeFishCommandCompletion_buf (h : Heap) (pathFuel : Nat) (rootCmd : Ptr) :
    ∀ (fuel : Nat) (cmd : Ptr) (buf : String),
    writeFishCommandCompletion h pathFuel fuel rootCmd cmd buf =
      (writeFishCommandCompletion h pathFuel fuel rootCmd cmd "").map (fun t => buf ++ t) := by
  intro fuel
  induction fuel with
  | zero => intro cmd buf; simp [writeFishCommandCompletion, Except.map]
  | succ n ih =>
    intro cmd buf
    rw [writeFishCommandCompletion_step h pathFuel n rootCmd ih cmd buf,
      writeFishCommandCompletion_step h pathFuel n rootCmd ih cmd ""]
    cases (visibleCommands h cmd).mapM
      (fun c => (commandCompletionCondition h pathFuel rootCmd cmd).map
        (fun condition => subCommandLine h rootCmd condition c)) with
    | error e => rfl
    | ok lines =>
      cases writeCommandFlagsCompletion h pathFuel rootCmd cmd "" with
      | error e => rfl
      | ok flagLines =>
        cases (visibleCommands h cmd).mapM
            (fun c => writeFishCommandCompletion h pathFuel n rootCmd c "") with
        | error e => rfl
        | ok subtrees => simp [Except.map, bind, Except.bind, pure, Except.pure]

theorem writeFishCommandCompletion_unfold (h : Heap) (pathFuel fuel : Nat) (rootCmd cmd : Ptr)
    (buf : String) :
    writeFishCommandCompletion h pathFuel (fuel + 1) rootCmd cmd buf =
      ((visibleCommands h cmd).mapM
        (fun c => (commandCompletionCondition h pathFuel rootCmd cmd).map
          (fun condition => subCommandLine h rootCmd condition c)) >>= fun lines =>
        writeCommandFlagsCompletion h pathFuel rootCmd cmd "" >>= fun flagLines =>
          (visibleCommands h cmd).mapM
            (fun c => writeFishCommandCompletion h pathFuel fuel rootCmd c "") >>= fun subtrees =>
            pure (buf ++ (String.join lines ++ flagLines ++ String.join subtrees))) :=
  writeFishCommandCompletion_step h pathFuel fuel rootCmd
    (writeFishCommandCompletion_buf h pathFuel rootCmd fuel) cmd buf

theorem mapM_cons_ok {α β ε : Type} (f : α → Except ε β) (a : α) (l : List α) (ts : List β)
    (hm : (a :: l).mapM f = .ok ts) :
    ∃ t ts', f a = .ok t ∧ l.mapM f = .ok ts' ∧ ts = t :: ts' := by
  rw [List.mapM_cons] at hm
  cases hfa : f a with
  | error e => rw [hfa] at hm; cases hm
  | ok t =>
    cases hl : l.mapM f with
    | error e => rw [hfa, hl] at hm; cases hm
    | ok ts' =>
      rw [hfa, hl] at hm
      refine ⟨t, ts', rfl, rfl, ?_⟩
      cases hm
      rfl

theorem mapM_append_ok {α β ε : Type} (f : α → Except ε β) (l₁ l₂ : List α) (ts : List β)
    (hm : (l₁ ++ l₂).mapM f = .ok ts) :
    ∃ ts₁ ts₂, l₁.mapM f = .ok ts₁ ∧ l₂.mapM f = .ok ts₂ ∧ ts = ts₁ ++ ts₂ := by
  induction l₁ generalizing ts with
  | nil => exact ⟨[], ts, by rw [List.mapM_nil]; rfl, by simpa using hm, rfl⟩
  | cons a l ih =>
    rw [List.cons_append] at hm
    obtain ⟨t, ts', hfa, hl, rfl⟩ := mapM_cons_ok f a _ ts hm
    obtain ⟨ts₁, ts₂, h₁, h₂, rfl⟩ := ih ts' hl
    refine ⟨t :: ts₁, ts₂, ?_, h₂, rfl⟩
    rw [List.mapM_cons, hfa, h₁]
    rfl

theorem mapM_two_ok {α ε : Type} (f : α → Except ε String) (l₁ l₂ l₃ : List α) (a b : α)
    (ts : List String) (hm : (l₁ ++ a :: l₂ ++ b :: l₃).mapM f = .ok ts) :
    ∃ ta tb pre mid post, f a = .ok ta ∧ f b = .ok tb ∧
      String.join ts = pre ++ ta ++ mid ++ tb ++ post := by
  obtain ⟨ts₁, ts₂, h₁, h₂, rfl⟩ := mapM_append_ok f (l₁ ++ a :: l₂) (b :: l₃) ts hm
  obtain ⟨ts₃, ts₄, _, h₄, rfl⟩ := mapM_append_ok f l₁ (a :: l₂) ts₁ h₁
  obtain ⟨ta, ts₅, hfa, _, rfl⟩ := mapM_cons_ok f a l₂ ts₄ h₄
  obtain ⟨tb, ts₆, hfb, _, rfl⟩ := mapM_cons_ok f b l₃ ts₂ h₂
  refine ⟨ta, tb, String.join ts₃, String.join ts₅, String.join ts₆, hfa, hfb, ?_⟩
  simp [join_append, join_cons, String.append_assoc]

/-! ### Well-formed trees and `subCommandPath` -/

theorem wellFormed_sub (h : Heap) (depth : Nat) (cmd subCmd : Ptr)
    (hwf : wellFormed h (depth + 1) cmd = true) (hmem : subCmd ∈ (h cmd).Commands) :
    (h subCmd).Parent = some cmd ∧ wellFormed h depth subCmd = true := by
  simp only [wellFormed, List.all_eq_true, Bool.and_eq_true, decide_eq_true_eq] at hwf
  exact hwf subCmd hmem

theorem wellFormed_pos (h : Heap) (depth : Nat) (cmd : Ptr)
    (hwf : wellFormed h depth cmd = true) : 0 < depth := by
  cases depth with
  | zero => simp [wellFormed] at hwf
  | succ n => exact Nat.succ_pos n

theorem descends_append (h : Heap) (l₁ : List Ptr) (b : Ptr) (l₂ : List Ptr) (cmd : Ptr) :
    descends h cmd (l₁ ++ b :: l₂) = true ↔
      descends h cmd (l₁ ++ [b]) = true ∧ descends h b l₂ = true := by
  induction l₁ generalizing cmd with
  | nil => simp [descends]
  | cons a l ih => simp [descends, ih, and_assoc]

theorem wellFormed_descends (h : Heap) (above : List Ptr) :
    ∀ (depth : Nat) (cmd n : Ptr), wellFormed h depth cmd = true →
      descends h cmd (above ++ [n]) = true →
      above.length + 1 < depth ∧ wellFormed h (depth - (above.length + 1)) n = true := by
  induction above with
  | nil =>
    intro depth cmd n hwf hd
    cases depth with
    | zero => simp [wellFormed] at hwf
    | succ d =>
      simp only [List.nil_append, descends, Bool.and_true, decide_eq_true_eq] at hd
      have hn := (wellFormed_sub h d cmd n hwf hd).2
      have := wellFormed_pos h d n hn
      refine ⟨by simp; omega, ?_⟩
      simpa using hn
  | cons a l ih =>
    intro depth cmd n hwf hd
    cases depth with
    | zero => simp [wellFormed] at hwf
    | succ d =>
      simp only [List.cons_append, descends, Bool.and_eq_true, decide_eq_true_eq] at hd
      have ha := (wellFormed_sub h d cmd a hwf hd.1).2
      obtain ⟨hlt, hw⟩ := ih d a n ha hd.2
      refine ⟨by simp; omega, ?_⟩
      have : d + 1 - ((a :: l).length + 1) = d - (l.length + 1) := by simp
      rw [this]
      exact hw

theorem wellFormed_not_mem (h : Heap) :
    ∀ (depth : Nat) (cmd : Ptr) (chain : List Ptr), wellFormed h depth cmd = true →
      descends h cmd chain = true → cmd ∉ chain := by
  intro depth
  induction depth using Nat.strong_induction_on with
  | _ depth ih =>
    intro cmd chain hwf hd hmem
    obtain ⟨l₁, l₂, rfl⟩ := List.append_of_mem hmem
    have hd₁ := ((descends_append h l₁ cmd l₂ cmd).1 hd).1
    obtain ⟨hlt, hw⟩ := wellFormed_descends h l₁ depth cmd cmd hwf hd₁
    exact ih (depth - (l₁.length + 1)) (by omega) cmd (l₁ ++ [cmd]) hw hd₁ (by simp)

theorem wellFormed_chain (h : Heap) (chain : List Ptr) :
    ∀ (depth : Nat) (cmd : Ptr), wellFormed h depth cmd = true →
      descends h cmd chain = true →
      List.Chain (fun a b => (h b).Parent = some a) cmd chain := by
  induction chain with
  | nil => intro _ _ _ _; exact List.Chain.nil
  | cons a l ih =>
    intro depth cmd hwf hd
    cases depth with
    | zero => simp [wellFormed] at hwf
    | succ d =>
      simp only [descends, Bool.and_eq_true, decide_eq_true_eq] at hd
      obtain ⟨hp, ha⟩ := wellFormed_sub h d cmd a hwf hd.1
      exact List.Chain.cons hp (ih d a ha hd.2)

theorem subCommandPathLoop_chain (h : Heap) (rootCmd : Ptr) (above : List Ptr) :
    ∀ (n : Ptr) (path : List String) (fuel : Nat),
      List.Chain (fun a b => (h b).Parent = some a) rootCmd (above ++ [n]) →
      rootCmd ∉ above →
      (above.length + 1 ≤ fuel →
        subCommandPathLoop h rootCmd fuel n path =
          .ok (String.intercalate " " ((above ++ [n]).map (fun a => (h a).Name) ++ path))) ∧
      (fuel < above.length + 1 →
        subCommandPathLoop h rootCmd fuel n path = .error .outOfFuel) := by
  induction above using List.reverseRecOn with
  | nil =>
    intro n path fuel hc _
    simp only [List.nil_append, List.chain_cons] at hc
    constructor
    · intro hf
      obtain ⟨f, rfl⟩ : ∃ f, fuel = f + 1 := ⟨fuel - 1, by simp at hf; omega⟩
      simp [subCommandPathLoop, hc.1]
    · intro hf
      have : fuel = 0 := by simp at hf; omega
      subst this
      rfl
  | append_singleton l b ih =>
    intro n path fuel hc hnot
    rw [List.append_assoc, List.singleton_append] at hc
    obtain ⟨hc₁, hc₂⟩ := List.chain_split.1 hc
    simp only [List.chain_cons] at hc₂
    have hb : b ≠ rootCmd := fun hb => hnot (by simp [hb])
    have hl : rootCmd ∉ l := fun hm => hnot (by simp [hm])
    have hpar : ¬ (some b = some rootCmd) := fun hh => hb (Option.some.inj hh)
    constructor
    · intro hf
      obtain ⟨f, rfl⟩ : ∃ f, fuel = f + 1 := ⟨fuel - 1, by simp at hf; omega⟩
      rw [subCommandPathLoop]
      simp only [hc₂.1]
      rw [if_neg hpar, (ih b _ f hc₁ hl).1 (by simp at hf ⊢; omega)]
      simp
    · intro hf
      cases fuel with
      | zero => rfl
      | succ f =>
        rw [subCommandPathLoop]
        simp only [hc₂.1]
        rw [if_neg hpar]
        exact (ih b _ f hc₁ hl).2 (by simp at hf ⊢; omega)

/-- C4. In a well-formed tree under `r`, for a command `n` reached from `r`
through the listed subcommands `above ++ [n]`: the parent back-references follow
this chain upwards to `r`, and `subCommandPath r n`, with fuel for the length of
the chain, returns the names of the chain from the top down joined by single
spaces, the name of `r` not among them; for a subcommand listed by `r` itself the
result is its name. -/
theorem subCommandPath_joins_chain (h : Heap) (depth : Nat) (r : Ptr) (above : List Ptr)
    (n : Ptr) (hwf : wellFormed h depth r = true)
    (hdesc : descends h r (above ++ [n]) = true) :
    List.Chain (fun a b => (h b).Parent = some a) r (above ++ [n]) ∧
    (∀ fuel, (above ++ [n]).length ≤ fuel →
      subCommandPath h fuel r n =
        .ok (String.intercalate " " ((above ++ [n]).map (fun a => (h a).Name)))) ∧
    (above = [] → ∀ fuel, subCommandPath h (fuel + 1) r n = .ok (h n).Name) ∧
    r ∉ above ++ [n] := by
  have hchain := wellFormed_chain h (above ++ [n]) depth r hwf hdesc
  have hnot : r ∉ above := fun hm =>
    wellFormed_not_mem h depth r (above ++ [n]) hwf hdesc (by simp [hm])
  refine ⟨hchain, ?_, ?_, wellFormed_not_mem h depth r (above ++ [n]) hwf hdesc⟩
  · intro fuel hf
    have := (subCommandPathLoop_chain h r above n [] fuel hchain hnot).1 (by simpa using hf)
    simpa [subCommandPath] using this
  · intro ha fuel
    subst ha
    have := (subCommandPathLoop_chain h r [] n [] (fuel + 1) hchain hnot).1 (by simp)
    simpa [subCommandPath, String.intercalate, String.intercalate.go] using this

/-! ### The preamble -/

theorem foldlM_collect {α β : Type} (g : α → β) (l : List α) (init : List β) :
    Id.run (l.foldlM (fun acc a => (pure (acc ++ [g a]) : Id (List β))) init) =
      init ++ l.map g := by
  induction l generalizing init with
  | nil => simp [Id.run]
  | cons a l ih =>
    have := ih (init ++ [g a])
    simp [Id.run] at this ⊢
    exact this

theorem mem_visibleCommands (h : Heap) (cmd c : Ptr) :
    c ∈ visibleCommands h cmd ↔
      c ∈ (h cmd).Commands ∧ (h c).IsAvailableCommand = true ∧ (h cmd).helpCommand ≠ some c := by
  unfold visibleCommands
  simp only [List.mem_filter, Bool.and_eq_true, Bool.not_eq_true', decide_eq_false_iff_not]
  constructor
  · rintro ⟨h₁, h₂, h₃⟩
    exact ⟨h₁, h₂, fun hh => h₃ hh.symm⟩
  · rintro ⟨h₁, h₂, h₃⟩
    exact ⟨h₁, h₂, fun hh => h₃ hh.symm⟩

theorem writeFishPreamble_eq (h : Heap) (cmd : Ptr) (buf : String) :
    writeFishPreamble h cmd buf =
      buf ++ ("\nfunction " ++ ("__fish_" ++ (h cmd).Name ++ "_no_subcommand") ++
        " --description 'Test if oly has yet to be given the subcommand'\n" ++
        "\tfor i in (commandline -opc)\n" ++
        "\t\tif contains -- $i " ++
        String.intercalate " " ((visibleCommands h cmd).map (fun c => (h c).Name)) ++ "\n" ++
        "\t\t\treturn 1\n\t\tend\n\tend\n\treturn 0\nend\n" ++
        "function " ++ ("__fish_" ++ (h cmd).Name ++ "_has_flag") ++ "\n" ++
        "  for i in (commandline -opc)\n" ++
        "\t\tif contains -- \"--$1\" $i\n" ++
        "\t\t\treturn 0\n\t\tend\n\tend\n\treturn 1\nend\n") := by
  unfold writeFishPreamble
  simp only [rangeCommands_eq, foldlM_collect, List.nil_append]
  apply String.ext
  simp only [String.data_append, List.append_assoc]
  rfl

/-! ### More fuel changes no result -/

theorem subCommandPathLoop_mono (h : Heap) (rootCmd : Ptr) :
    ∀ (fuel fuel' : Nat) (cmd : Ptr) (path : List String) (out : String), fuel ≤ fuel' →
      subCommandPathLoop h rootCmd fuel cmd path = .ok out →
      subCommandPathLoop h rootCmd fuel' cmd path = .ok out := by
  intro fuel
  induction fuel with
  | zero => intro fuel' cmd path out _ hh; simp [subCommandPathLoop] at hh
  | succ n ih =>
    intro fuel' cmd path out hle hh
    obtain ⟨m, rfl⟩ : ∃ m, fuel' = m + 1 := ⟨fuel' - 1, by omega⟩
    rw [subCommandPathLoop] at hh ⊢
    by_cases hp : (h cmd).Parent = some rootCmd
    · simpa [hp] using hh
    · simp only [hp, if_false] at hh ⊢
      cases hpar : (h cmd).Parent with
      | none => rw [hpar] at hh; simp at hh
      | some parent =>
        rw [hpar] at hh
        exact ih m parent _ out (by omega) hh

theorem subCommandPath_mono (h : Heap) (fuel fuel' : Nat) (rootCmd cmd : Ptr) (out : String)
    (hle : fuel ≤ fuel') (hh : subCommandPath h fuel rootCmd cmd = .ok out) :
    subCommandPath h fuel' rootCmd cmd = .ok out :=
  subCommandPathLoop_mono h rootCmd fuel fuel' cmd [] out hle hh

theorem map_ok_mono {α β ε : Type} (x y : Except ε α) (g : α → β) (b : β)
    (hxy : ∀ a, x = .ok a → y = .ok a) (hx : x.map g = .ok b) : y.map g = .ok b := by
  cases x with
  | error e => simp [Except.map] at hx
  | ok a => rw [hxy a rfl]; exact hx

theorem commandCompletionCondition_mono (h : Heap) (fuel fuel' : Nat) (rootCmd cmd : Ptr)
    (out : String) (hle : fuel ≤ fuel')
    (hh : commandCompletionCondition h fuel rootCmd cmd = .ok out) :
    commandCompletionCondition h fuel' rootCmd cmd = .ok out := by
  rw [commandCompletionCondition_eq] at hh ⊢
  by_cases hrc : rootCmd = cmd
  · simpa [hrc] using hh
  · simp only [hrc, if_false] at hh ⊢
    refine map_ok_mono _ _ _ _ (fun a ha => ?_) hh
    exact map_ok_mono _ _ _ _ (fun p hp => subCommandPath_mono h fuel fuel' rootCmd cmd p hle hp) ha

theorem completionCondition_mono (h : Heap) (fuel fuel' : Nat) (rootCmd cmd : Ptr)
    (out : String) (hle : fuel ≤ fuel')
    (hh : completionCondition h fuel rootCmd cmd = .ok out) :
    completionCondition h fuel' rootCmd cmd = .ok out := by
  rw [completionCondition_eq] at hh ⊢
  by_cases hrc : rootCmd = cmd
  · simpa [hrc] using hh
  · simp only [hrc, if_false] at hh ⊢
    exact map_ok_mono _ _ _ _ (fun p hp => subCommandPath_mono h fuel fuel' rootCmd cmd p hle hp) hh

theorem writeCommandFlagsCompletion_mono (h : Heap) (fuel fuel' : Nat) (rootCmd cmd : Ptr)
    (buf out : String) (hle : fuel ≤ fuel')
    (hh : writeCommandFlagsCompletion h fuel rootCmd cmd buf = .ok out) :
    writeCommandFlagsCompletion h fuel' rootCmd cmd buf = .ok out := by
  rw [writeCommandFlagsCompletion_eq] at hh ⊢
  cases hc : completionCondition h fuel rootCmd cmd with
  | ok c =>
    rw [completionCondition_mono h fuel fuel' rootCmd cmd c hle hc]
    rw [hc] at hh
    exact hh
  | error e =>
    rw [hc] at hh
    by_cases hl : completableFlags (h cmd).NonInheritedFlags ++
        completableFlags (h cmd).InheritedFlags = []
    · simp only [hl, if_true] at hh
      cases hc' : completionCondition h fuel' rootCmd cmd with
      | ok c => simp only [hl]; simpa [join_nil] using hh
      | error e' => simp only [hl, if_true]; exact hh
    · simp [hl] at hh

theorem mapM_ok_mono {α β ε : Type} (f g : α → Except ε β) (l : List α) :
    ∀ ts, (∀ a ∈ l, ∀ t, f a = .ok t → g a = .ok t) → l.mapM f = .ok ts → l.mapM g = .ok ts := by
  induction l with
  | nil => intro ts _ hh; rw [List.mapM_nil] at hh ⊢; exact hh
  | cons a l ih =>
    intro ts hfg hh
    obtain ⟨t, ts', hfa, hl, rfl⟩ := mapM_cons_ok f a l ts hh
    rw [List.mapM_cons, hfg a (by simp) t hfa,
      ih ts' (fun b hb => hfg b (List.mem_cons_of_mem a hb)) hl]
    rfl

theorem writeFishCommandCompletion_mono (h : Heap) (pathFuel pathFuel' : Nat) (rootCmd : Ptr)
    (hp : pathFuel ≤ pathFuel') :
    ∀ (fuel fuel' : Nat) (cmd : Ptr) (buf out : String), fuel ≤ fuel' →
      writeFishCommandCompletion h pathFuel fuel rootCmd cmd buf = .ok out →
      writeFishCommandCompletion h pathFuel' fuel' rootCmd cmd buf = .ok out := by
  intro fuel
  induction fuel with
  | zero => intro fuel' cmd buf out _ hh; simp [writeFishCommandCompletion] at hh
  | succ n ih =>
    intro fuel' cmd buf out hle hh
    obtain ⟨m, rfl⟩ : ∃ m, fuel' = m + 1 := ⟨fuel' - 1, by omega⟩
    rw [writeFishCommandCompletion_unfold] at hh ⊢
    cases hl : (visibleCommands h cmd).mapM
        (fun c => (commandCompletionCondition h pathFuel rootCmd cmd).map
          (fun condition => subCommandLine h rootCmd condition c)) with
    | error e => rw [hl] at hh; cases hh
    | ok lines =>
      cases hf : writeCommandFlagsCompletion h pathFuel rootCmd cmd "" with
      | error e => rw [hl, hf] at hh; cases hh
      | ok flagLines =>
        cases hs : (visibleCommands h cmd).mapM
            (fun c => writeFishCommandCompletion h pathFuel n rootCmd c "") with
        | error e => rw [hl, hf, hs] at hh; cases hh
        | ok subtrees =>
          rw [hl, hf, hs] at hh
          rw [mapM_ok_mono _ _ _ lines (fun a _ t ht => map_ok_mono _ _ _ _
              (fun c hc => commandCompletionCondition_mono h pathFuel pathFuel' rootCmd cmd c hp hc)
              ht) hl,
            writeCommandFlagsCompletion_mono h pathFuel pathFuel' rootCmd cmd "" flagLines hp hf,
            mapM_ok_mono _ _ _ subtrees (fun a _ t ht => ih m a "" t (by omega) ht) hs]
          exact hh

/-! ### The whole script -/

theorem writeTo_acceptAll (buf : String) (hne : buf ≠ "") :
    WriteTo buf acceptAll = .ok ([buf], none) := by
  have hpos := (utf8ByteSize_pos_iff buf).2 hne
  unfold WriteTo acceptAll
  simp
  omega

theorem writeFishPreamble_ne_empty (h : Heap) (cmd : Ptr) : writeFishPreamble h cmd "" ≠ "" := by
  rw [writeFishPreamble_eq]
  intro hh
  have := congrArg String.data hh
  simp only [String.data_append, List.append_assoc] at this
  exact absurd this (by simp)


theorem ok_bind {ε α β : Type} (a : α) (f : α → Except ε β) : (Except.ok a >>= f) = f a := rfl

theorem genFishCompletion_eq (h : Heap) (pathFuel fuel : Nat) (c : Ptr) (w : Writer) :
    GenFishCompletion h pathFuel fuel c w =
      (writeFishCommandCompletion h pathFuel fuel c c (writeFishPreamble h c "") >>=
        fun buf => WriteTo buf w) := rfl

theorem append_ne_empty (a b : String) (ha : a ≠ "") : a ++ b ≠ "" := by
  intro hh
  have := congrArg String.data hh
  simp only [String.data_append] at this
  have h2 : a.data = [] := (List.append_eq_nil.1 this).1
  exact ha (String.ext h2)

set_option maxRecDepth 100000 in
theorem writeFishPreamble_appBuild :
    writeFishPreamble appBuild 0 "" =
      "\nfunction __fish_app_no_subcommand --description 'Test if oly has yet to be given the subcommand'\n\tfor i in (commandline -opc)\n\t\tif contains -- $i build\n\t\t\treturn 1\n\t\tend\n\tend\n\treturn 0\nend\nfunction __fish_app_has_flag\n  for i in (commandline -opc)\n\t\tif contains -- \"--$1\" $i\n\t\t\treturn 0\n\t\tend\n\tend\n\treturn 1\nend\n" := by
  rfl

/-- C8. End to end on the tree `appBuild`, with any fuel from one iteration of
the path loop and two levels of recursion on: the script handed to the sink is
the preamble of `app`, then the subcommand line of `build` under the condition
`__fish_app_no_subcommand`, then the flag line of `--output`/`-o` under
`__fish_seen_subcommand_from build` with the marker `-r`, and nothing after. -/
theorem genFishCompletion_app_build (pathFuel fuel : Nat) (w : Writer) :
    GenFishCompletion appBuild (pathFuel + 1) (fuel + 2) 0 w =
      WriteTo (writeFishPreamble appBuild 0 "" ++
        "complete -c app -f -n '__fish_app_no_subcommand' -a build -d 'Build the project'\n" ++
        "complete -c app -f -n '__fish_seen_subcommand_from build' -r -s o -l output -d 'output path'\n")
        w ∧
    GenFishCompletion appBuild (pathFuel + 1) (fuel + 2) 0 acceptAll =
      .ok ([writeFishPreamble appBuild 0 "" ++
        "complete -c app -f -n '__fish_app_no_subcommand' -a build -d 'Build the project'\n" ++
        "complete -c app -f -n '__fish_seen_subcommand_from build' -r -s o -l output -d 'output path'\n"],
        none) ∧
    writeFishPreamble appBuild 0 "" =
      "\nfunction __fish_app_no_subcommand --description 'Test if oly has yet to be given the subcommand'\n\tfor i in (commandline -opc)\n\t\tif contains -- $i build\n\t\t\treturn 1\n\t\tend\n\tend\n\treturn 0\nend\nfunction __fish_app_has_flag\n  for i in (commandline -opc)\n\t\tif contains -- \"--$1\" $i\n\t\t\treturn 0\n\t\tend\n\tend\n\treturn 1\nend\n" := by
  have key : ∀ w, GenFishCompletion appBuild (pathFuel + 1) (fuel + 2) 0 w =
      WriteTo (writeFishPreamble appBuild 0 "" ++
        "complete -c app -f -n '__fish_app_no_subcommand' -a build -d 'Build the project'\n" ++
        "complete -c app -f -n '__fish_seen_subcommand_from build' -r -s o -l output -d 'output path'\n")
        w := by
    intro w
    have hw := writeFishCommandCompletion_mono appBuild 1 (pathFuel + 1) 0 (by omega) 2 (fuel + 2) 0
      (writeFishPreamble appBuild 0 "") _ (by omega)
      (show writeFishCommandCompletion appBuild 1 2 0 0 (writeFishPreamble appBuild 0 "") =
        .ok (writeFishPreamble appBuild 0 "" ++
        "complete -c app -f -n '__fish_app_no_subcommand' -a build -d 'Build the project'\n" ++
        "complete -c app -f -n '__fish_seen_subcommand_from build' -r -s o -l output -d 'output path'\n")
        from rfl)
    rw [genFishCompletion_eq, hw, ok_bind]
  refine ⟨key w, ?_, writeFishPreamble_appBuild⟩
  rw [key acceptAll]
  apply writeTo_acceptAll
  rw [String.append_assoc]
  exact append_ne_empty _ _ (writeFishPreamble_ne_empty appBuild 0)

/-- C9. For a root that lists no subcommand and has no non-inherited and no
inherited flag, the walker appends nothing and the script handed to the sink is
the preamble, with no word after `contains -- $i`. -/
theorem genFishCompletion_bare_root (h : Heap) (pathFuel fuel : Nat) (root : Ptr) (w : Writer)
    (hc : (h root).Commands = []) (hn : (h root).NonInheritedFlags = [])
    (hi : (h root).InheritedFlags = []) :
    (∀ buf, writeFishCommandCompletion h pathFuel (fuel + 1) root root buf = .ok buf) ∧
    GenFishCompletion h pathFuel (fuel + 1) root w = WriteTo (writeFishPreamble h root "") w ∧
    GenFishCompletion h pathFuel (fuel + 1) root acceptAll =
      .ok ([writeFishPreamble h root ""], none) ∧
    writeFishPreamble h root "" =
      "\nfunction __fish_" ++ (h root).Name ++
      "_no_subcommand --description 'Test if oly has yet to be given the subcommand'\n" ++
      "\tfor i in (commandline -opc)\n" ++
      "\t\tif contains -- $i " ++ "" ++ "\n" ++
      "\t\t\treturn 1\n\t\tend\n\tend\n\treturn 0\nend\n" ++
      "function __fish_" ++ (h root).Name ++ "_has_flag\n" ++
      "  for i in (commandline -opc)\n" ++
      "\t\tif contains -- \"--$1\" $i\n" ++
      "\t\t\treturn 0\n\t\tend\n\tend\n\treturn 1\nend\n" := by
  have hv : visibleCommands h root = [] := by simp [visibleCommands, hc]
  have hwalk : ∀ buf, writeFishCommandCompletion h pathFuel (fuel + 1) root root buf = .ok buf := by
    intro buf
    rw [writeFishCommandCompletion_unfold, hv, writeCommandFlagsCompletion_eq, hn, hi]
    simp only [List.mapM_nil]
    cases completionCondition h pathFuel root root <;>
      simp [completableFlags, bind, Except.bind, pure, Except.pure, join_nil]
  have key : ∀ w, GenFishCompletion h pathFuel (fuel + 1) root w =
      WriteTo (writeFishPreamble h root "") w := by
    intro w
    rw [genFishCompletion_eq, hwalk, ok_bind]
  refine ⟨hwalk, key w, ?_, ?_⟩
  · rw [key acceptAll]
    exact writeTo_acceptAll _ (writeFishPreamble_ne_empty h root)
  · rw [writeFishPreamble_eq, hv]
    apply String.ext
    simp only [String.data_append, List.append_assoc]
    rfl

/-- The script of `soloTree`. -/
theorem genFishCompletion_bare_root_witness :
    (soloTree 0).Commands = [] ∧ (soloTree 0).NonInheritedFlags = [] ∧
    (soloTree 0).InheritedFlags = [] ∧
    GenFishCompletion soloTree 0 1 0 acceptAll = .ok ([writeFishPreamble soloTree 0 ""], none) :=
  ⟨rfl, rfl, rfl, (genFishCompletion_bare_root soloTree 0 0 0 acceptAll rfl rfl rfl).2.2.1⟩

/-! ### The walker as a traversal -/

theorem mapM_congr_ext {α β ε : Type} (f g : α → Except ε β) (l : List α)
    (hfg : ∀ a ∈ l, f a = g a) : l.mapM f = l.mapM g := by
  induction l with
  | nil => rw [List.mapM_nil, List.mapM_nil]
  | cons a l ih =>
    rw [List.mapM_cons, List.mapM_cons, hfg a (by simp),
      ih (fun b hb => hfg b (List.mem_cons_of_mem a hb))]

theorem walk_succ (h : Heap) (own : Ptr → Except Fault String) (fuel : Nat) (cmd : Ptr) :
    walk h own (fuel + 1) cmd =
      (own cmd >>= fun t =>
        (visibleCommands h cmd).mapM (walk h own fuel) >>= fun subtrees =>
          pure (t ++ String.join subtrees)) := by
  rw [walk]

theorem writeFishCommandCompletion_walk (h : Heap) (pathFuel : Nat) (rootCmd : Ptr) :
    ∀ (fuel : Nat) (cmd : Ptr) (buf : String),
      writeFishCommandCompletion h pathFuel fuel rootCmd cmd buf =
        (walk h (ownText h pathFuel rootCmd) fuel cmd).map (fun t => buf ++ t) := by
  intro fuel
  induction fuel with
  | zero => intro cmd buf; simp [writeFishCommandCompletion, walk, Except.map]
  | succ n ih =>
    intro cmd buf
    rw [writeFishCommandCompletion_unfold, walk_succ, ownText]
    have e : (fun c => writeFishCommandCompletion h pathFuel n rootCmd c "") =
        walk h (ownText h pathFuel rootCmd) n := by
      funext c
      rw [ih c ""]
      cases walk h (ownText h pathFuel rootCmd) n c <;> simp [Except.map]
    rw [e]
    cases (visibleCommands h cmd).mapM
        (fun c => (commandCompletionCondition h pathFuel rootCmd cmd).map
          (fun condition => subCommandLine h rootCmd condition c)) with
    | error e => rfl
    | ok lines =>
      cases writeCommandFlagsCompletion h pathFuel rootCmd cmd "" with
      | error e => rfl
      | ok flagLines =>
        cases (visibleCommands h cmd).mapM (walk h (ownText h pathFuel rootCmd) n) with
        | error e => rfl
        | ok subtrees =>
          simp [Except.map, bind, Except.bind, pure, Except.pure, String.append_assoc]

theorem walk_congr (h h' : Heap) (own own' : Ptr → Except Fault String)
    (hv : ∀ c, visibleCommands h' c = visibleCommands h c) (ho : ∀ c, own' c = own c) :
    ∀ (fuel : Nat) (cmd : Ptr), walk h' own' fuel cmd = walk h own fuel cmd := by
  intro fuel
  induction fuel with
  | zero => intro cmd; rfl
  | succ n ih =>
    intro cmd
    rw [walk_succ, walk_succ, hv, ho]
    have e : walk h' own' n = walk h own n := funext ih
    rw [e]

theorem genFishCompletion_walk (h : Heap) (pathFuel fuel : Nat) (c : Ptr) (w : Writer) :
    GenFishCompletion h pathFuel fuel c w =
      (walk h (ownText h pathFuel c) fuel c >>= fun t =>
        WriteTo (writeFishPreamble h c "" ++ t) w) := by
  rw [genFishCompletion_eq, writeFishCommandCompletion_walk]
  cases walk h (ownText h pathFuel c) fuel c <;> simp only [Except.map, bind, Except.bind]

/-! ### Replacing the flag sets of one command -/

theorem setFlags_other (h : Heap) (cmd : Ptr) (f₁ f₂ f₃ : List Flag) (p : Ptr) (hp : p ≠ cmd) :
    setFlags h cmd f₁ f₂ f₃ p = h p := by
  simp [setFlags, Function.update_noteq hp]

theorem setFlags_shape (h : Heap) (cmd : Ptr) (f₁ f₂ f₃ : List Flag) (p : Ptr) :
    (setFlags h cmd f₁ f₂ f₃ p).Short = (h p).Short ∧
    (setFlags h cmd f₁ f₂ f₃ p).Commands = (h p).Commands ∧
    (setFlags h cmd f₁ f₂ f₃ p).IsAvailableCommand = (h p).IsAvailableCommand ∧
    (setFlags h cmd f₁ f₂ f₃ p).helpCommand = (h p).helpCommand := by
  unfold setFlags
  by_cases hp : p = cmd
  · subst hp; simp
  · simp [Function.update_noteq hp]

theorem visibleCommands_setFlags (h : Heap) (cmd : Ptr) (f₁ f₂ f₃ : List Flag) (c : Ptr) :
    visibleCommands (setFlags h cmd f₁ f₂ f₃) c = visibleCommands h c := by
  unfold visibleCommands
  rw [(setFlags_shape h cmd f₁ f₂ f₃ c).2.1, (setFlags_shape h cmd f₁ f₂ f₃ c).2.2.2]
  apply List.filter_congr
  intro x _
  rw [(setFlags_shape h cmd f₁ f₂ f₃ x).2.2.1]

theorem subCommandLine_setFlags (h : Heap) (cmd : Ptr) (f₁ f₂ f₃ : List Flag) (rootCmd : Ptr)
    (condition : String) (c : Ptr) :
    subCommandLine (setFlags h cmd f₁ f₂ f₃) rootCmd condition c =
      subCommandLine h rootCmd condition c := by
  unfold subCommandLine
  rw [setFlags_Name, setFlags_Name, (setFlags_shape h cmd f₁ f₂ f₃ c).1]

theorem flagLine_setFlags (h : Heap) (cmd : Ptr) (f₁ f₂ f₃ : List Flag) (rootCmd : Ptr)
    (condition : String) (flag : Flag) :
    flagLine (setFlags h cmd f₁ f₂ f₃) rootCmd condition flag =
      flagLine h rootCmd condition flag := by
  unfold flagLine
  rw [setFlags_Name]

theorem writeFishPreamble_setFlags (h : Heap) (cmd : Ptr) (f₁ f₂ f₃ : List Flag) (c : Ptr)
    (buf : String) :
    writeFishPreamble (setFlags h cmd f₁ f₂ f₃) c buf = writeFishPreamble h c buf := by
  rw [writeFishPreamble_eq, writeFishPreamble_eq, visibleCommands_setFlags, setFlags_Name]
  have : (fun c => (setFlags h cmd f₁ f₂ f₃ c).Name) = (fun c => (h c).Name) := by
    funext c; exact setFlags_Name h cmd f₁ f₂ f₃ c
  rw [this]

theorem firstConjunct_setFlags (h : Heap) (cmd : Ptr) (f₁ f₂ f₃ : List Flag) (fuel : Nat)
    (rootCmd c : Ptr) :
    firstConjunct (setFlags h cmd f₁ f₂ f₃) fuel rootCmd c = firstConjunct h fuel rootCmd c := by
  unfold firstConjunct
  rw [subCommandPath_setFlags, setFlags_Name]

theorem negatedCheck_setFlags (h : Heap) (cmd : Ptr) (f₁ f₂ f₃ : List Flag) (rootCmd : Ptr) :
    negatedCheck (setFlags h cmd f₁ f₂ f₃) rootCmd = negatedCheck h rootCmd := by
  funext flag
  unfold negatedCheck
  rw [setFlags_Name]

/-! ### The own lines of a command -/

theorem commandCompletionCondition_first (h : Heap) (fuel : Nat) (rootCmd cmd : Ptr) :
    commandCompletionCondition h fuel rootCmd cmd =
      (firstConjunct h fuel rootCmd cmd).map
        (fun first => "-n '" ++ String.intercalate "; and "
          (first :: (h cmd).LocalNonPersistentFlags.map (negatedCheck h rootCmd)) ++ "'") := by
  rw [commandCompletionCondition_eq]
  rfl

theorem completionCondition_first (h : Heap) (fuel : Nat) (rootCmd cmd : Ptr) :
    completionCondition h fuel rootCmd cmd =
      (firstConjunct h fuel rootCmd cmd).map (fun first => "-n '" ++ first ++ "'") := by
  rw [completionCondition_eq]
  unfold firstConjunct
  have e₁ : "-n '__fish_" = "-n '" ++ "__fish_" := by decide
  have e₂ : "-n '__fish_seen_subcommand_from " = "-n '" ++ "__fish_seen_subcommand_from " := by
    decide
  by_cases hrc : rootCmd = cmd
  · simp only [hrc, if_true, Except.map]
    apply congrArg
    apply String.ext
    simp only [String.data_append, List.append_assoc]
    rfl
  · simp only [hrc, if_false]
    cases subCommandPath h fuel rootCmd cmd with
    | error e => rfl
    | ok path =>
      simp only [Except.map]
      rw [e₂]
      simp only [String.append_assoc]

theorem ownText_eq (h : Heap) (pathFuel : Nat) (rootCmd cmd : Ptr)
    (hvis : visibleCommands h cmd ≠ []) :
    ownText h pathFuel rootCmd cmd =
      (firstConjunct h pathFuel rootCmd cmd).map
        (fun first =>
          String.join ((visibleCommands h cmd).map
            (subCommandLine h rootCmd ("-n '" ++ String.intercalate "; and "
              (first :: (h cmd).LocalNonPersistentFlags.map (negatedCheck h rootCmd)) ++ "'"))) ++
          String.join ((completableFlags (h cmd).NonInheritedFlags ++
            completableFlags (h cmd).InheritedFlags).map
              (flagLine h rootCmd ("-n '" ++ first ++ "'")))) := by
  unfold ownText
  cases hf : firstConjunct h pathFuel rootCmd cmd with
  | error e =>
    have hccc : commandCompletionCondition h pathFuel rootCmd cmd = .error e := by
      rw [commandCompletionCondition_first, hf]; rfl
    rw [hccc, mapM_const_error]
    cases hv : visibleCommands h cmd with
    | nil => exact absurd hv hvis
    | cons a l => rfl
  | ok first =>
    have hccc : commandCompletionCondition h pathFuel rootCmd cmd =
        .ok ("-n '" ++ String.intercalate "; and "
          (first :: (h cmd).LocalNonPersistentFlags.map (negatedCheck h rootCmd)) ++ "'") := by
      rw [commandCompletionCondition_first, hf]; rfl
    have hcc : completionCondition h pathFuel rootCmd cmd = .ok ("-n '" ++ first ++ "'") := by
      rw [completionCondition_first, hf]; rfl
    rw [hccc, mapM_const_ok, writeCommandFlagsCompletion_eq, hcc]
    simp [Except.map, bind, Except.bind, pure, Except.pure]

theorem ownText_setFlags_other (h : Heap) (cmd : Ptr) (f₁ f₂ f₃ : List Flag) (pathFuel : Nat)
    (rootCmd c : Ptr) (hc : c ≠ cmd) :
    ownText (setFlags h cmd f₁ f₂ f₃) pathFuel rootCmd c = ownText h pathFuel rootCmd c := by
  unfold ownText
  rw [visibleCommands_setFlags, writeCommandFlagsCompletion_eq, writeCommandFlagsCompletion_eq,
    commandCompletionCondition_first, commandCompletionCondition_first,
    completionCondition_first, completionCondition_first, firstConjunct_setFlags,
    negatedCheck_setFlags, setFlags_other h cmd f₁ f₂ f₃ c hc]
  have e₁ : ∀ condition, subCommandLine (setFlags h cmd f₁ f₂ f₃) rootCmd condition =
      subCommandLine h rootCmd condition := fun condition =>
    funext (subCommandLine_setFlags h cmd f₁ f₂ f₃ rootCmd condition)
  have e₂ : ∀ condition, flagLine (setFlags h cmd f₁ f₂ f₃) rootCmd condition =
      flagLine h rootCmd condition := fun condition =>
    funext (flagLine_setFlags h cmd f₁ f₂ f₃ rootCmd condition)
  simp only [e₁, e₂]

theorem intercalate_singleton (s a : String) : String.intercalate s [a] = a := rfl

/-- C10, amended. Let `parent` have a visible subcommand and exactly one local
non-persistent flag, named `verbose`. The subcommand-listing condition of
`parent` ends with `; and ` and the negated check of `verbose`. The script of the
tree with `verbose` removed is the script of the tree itself in which, among the
own lines of `parent`, that check and its joiner have left the condition of the
subcommand lines and the flags named `verbose` have left the non-inherited flags
that get a flag line; the preamble, the traversal and the own lines of every
other command are the same. -/
theorem removeVerbose_script (h : Heap) (pathFuel fuel : Nat) (root parent : Ptr) (w : Writer)
    (verbose : Flag) (hname : verbose.Name = "verbose")
    (hlocal : (h parent).LocalNonPersistentFlags = [verbose])
    (hvis : visibleCommands h parent ≠ []) :
    commandCompletionCondition h pathFuel root parent =
      (firstConjunct h pathFuel root parent).map
        (fun first => "-n '" ++ first ++ "; and " ++ negatedCheck h root verbose ++ "'") ∧
    ownText h pathFuel root parent =
      (firstConjunct h pathFuel root parent).map
        (fun first =>
          String.join ((visibleCommands h parent).map
            (subCommandLine h root ("-n '" ++ first ++ "; and " ++ negatedCheck h root verbose ++ "'"))) ++
          String.join ((completableFlags (h parent).NonInheritedFlags ++
            completableFlags (h parent).InheritedFlags).map
              (flagLine h root ("-n '" ++ first ++ "'")))) ∧
    GenFishCompletion h pathFuel fuel root w =
      (walk h (ownText h pathFuel root) fuel root >>= fun t =>
        WriteTo (writeFishPreamble h root "" ++ t) w) ∧
    GenFishCompletion (removeVerbose h parent) pathFuel fuel root w =
      (walk h
          (Function.update (ownText h pathFuel root) parent
            ((firstConjunct h pathFuel root parent).map
              (fun first =>
                String.join ((visibleCommands h parent).map
                  (subCommandLine h root ("-n '" ++ first ++ "'"))) ++
                String.join
                  ((completableFlags
                      ((h parent).NonInheritedFlags.filter
                        (fun flag => decide (flag.Name ≠ "verbose"))) ++
                    completableFlags (h parent).InheritedFlags).map
                    (flagLine h root ("-n '" ++ first ++ "'"))))))
          fuel root >>= fun t =>
        WriteTo (writeFishPreamble h root "" ++ t) w) := by
  have hcheck : ∀ first : String,
      String.intercalate "; and "
        (first :: (h parent).LocalNonPersistentFlags.map (negatedCheck h root)) =
      first ++ ("; and " ++ negatedCheck h root verbose) := by
    intro first
    rw [hlocal, intercalate_cons]
    simp [join_cons, join_nil]
  refine ⟨?_, ?_, genFishCompletion_walk h pathFuel fuel root w, ?_⟩
  · rw [commandCompletionCondition_first]
    simp only [hcheck, String.append_assoc]
  · rw [ownText_eq h pathFuel root parent hvis]
    simp only [hcheck, String.append_assoc]
  · unfold removeVerbose
    rw [genFishCompletion_walk, writeFishPreamble_setFlags]
    have hw := walk_congr h (setFlags h parent
        ((h parent).NonInheritedFlags.filter (fun flag => decide (flag.Name ≠ "verbose")))
        (h parent).InheritedFlags
        ((h parent).LocalNonPersistentFlags.filter (fun flag => decide (flag.Name ≠ "verbose"))))
      (Function.update (ownText h pathFuel root) parent
        ((firstConjunct h pathFuel root parent).map
          (fun first =>
            String.join ((visibleCommands h parent).map
              (subCommandLine h root ("-n '" ++ first ++ "'"))) ++
            String.join
              ((completableFlags
                  ((h parent).NonInheritedFlags.filter
                    (fun flag => decide (flag.Name ≠ "verbose"))) ++
                completableFlags (h parent).InheritedFlags).map
                (flagLine h root ("-n '" ++ first ++ "'"))))))
      (ownText (setFlags h parent
        ((h parent).NonInheritedFlags.filter (fun flag => decide (flag.Name ≠ "verbose")))
        (h parent).InheritedFlags
        ((h parent).LocalNonPersistentFlags.filter (fun flag => decide (flag.Name ≠ "verbose"))))
        pathFuel root)
      (fun c => visibleCommands_setFlags h parent _ _ _ c) ?_ fuel root
    · rw [hw]
    · intro c
      by_cases hc : c = parent
      · subst hc
        rw [Function.update_same, ownText_eq _ pathFuel root c
          (by rw [visibleCommands_setFlags]; exact hvis)]
        rw [visibleCommands_setFlags, firstConjunct_setFlags, negatedCheck_setFlags,
          (setFlags_same h c _ _ _).1, (setFlags_same h c _ _ _).2.1,
          (setFlags_same h c _ _ _).2.2, hlocal]
        have e₁ : ∀ condition, subCommandLine (setFlags h c
            ((h c).NonInheritedFlags.filter (fun flag => decide (flag.Name ≠ "verbose")))
            (h c).InheritedFlags
            ([verbose].filter (fun flag => decide (flag.Name ≠ "verbose")))) root condition =
            subCommandLine h root condition := fun condition =>
          funext (subCommandLine_setFlags h c _ _ _ root condition)
        have e₂ : ∀ condition, flagLine (setFlags h c
            ((h c).NonInheritedFlags.filter (fun flag => decide (flag.Name ≠ "verbose")))
            (h c).InheritedFlags
            ([verbose].filter (fun flag => decide (flag.Name ≠ "verbose")))) root condition =
            flagLine h root condition := fun condition =>
          funext (flagLine_setFlags h c _ _ _ root condition)
        simp only [e₁, e₂]
        simp [hname, intercalate_singleton]
      · rw [Function.update_noteq hc]
        exact ownText_setFlags_other h parent _ _ _ pathFuel root c hc

/-- The condition of the root of `verboseTree`. -/
theorem removeVerbose_script_witness :
    verboseFlag.Name = "verbose" ∧
    (verboseTree 0).LocalNonPersistentFlags = [verboseFlag] ∧
    visibleCommands verboseTree 0 ≠ [] ∧
    commandCompletionCondition verboseTree 1 0 0 =
      (firstConjunct verboseTree 1 0 0).map
        (fun first => "-n '" ++ first ++ "; and " ++ negatedCheck verboseTree 0 verboseFlag ++ "'") :=
  ⟨rfl, rfl, by decide,
    (removeVerbose_script verboseTree 1 2 0 0 acceptAll verboseFlag rfl rfl (by decide)).1⟩

theorem ne_append_of_ne_empty (a b : String) (hb : b ≠ "") : a ≠ a ++ b := by
  intro hh
  have h₁ := congrArg String.data hh
  simp only [String.data_append] at h₁
  have h₂ : b.data = [] := by
    have := congrArg List.length h₁
    simp at this
    exact List.eq_nil_of_length_eq_zero this
  exact hb (String.ext h₂)

/-- C10, as stated, fails on `verboseTree`: the script of the tree without
`verbose` is not the script of the tree with only the negated check and its
joiner taken out of the subcommand line, since the flag line of `verbose` has
gone as well. -/
theorem negated_check_is_not_the_only_change :
    (verboseTree 0).LocalNonPersistentFlags = [verboseFlag] ∧
    visibleCommands verboseTree 0 = [1] ∧
    GenFishCompletion verboseTree 1 2 0 acceptAll =
      .ok ([writeFishPreamble verboseTree 0 "" ++
        "complete -c app -f -n '__fish_app_no_subcommand; and not __fish_app_has_flag verbose' -a child -d 'A child'\n" ++
        "complete -c app -f -n '__fish_app_no_subcommand'  -s v -l verbose -d 'be verbose'\n"],
        none) ∧
    GenFishCompletion (removeVerbose verboseTree 0) 1 2 0 acceptAll =
      .ok ([writeFishPreamble verboseTree 0 "" ++
        "complete -c app -f -n '__fish_app_no_subcommand' -a child -d 'A child'\n"], none) ∧
    writeFishPreamble verboseTree 0 "" ++
        "complete -c app -f -n '__fish_app_no_subcommand' -a child -d 'A child'\n" ≠
      writeFishPreamble verboseTree 0 "" ++
        "complete -c app -f -n '__fish_app_no_subcommand' -a child -d 'A child'\n" ++
        "complete -c app -f -n '__fish_app_no_subcommand'  -s v -l verbose -d 'be verbose'\n" := by
  refine ⟨rfl, rfl, ?_, ?_, ne_append_of_ne_empty _ _ (by decide)⟩
  · have hw : writeFishCommandCompletion verboseTree 1 2 0 0 (writeFishPreamble verboseTree 0 "") =
        .ok (writeFishPreamble verboseTree 0 "" ++
        "complete -c app -f -n '__fish_app_no_subcommand; and not __fish_app_has_flag verbose' -a child -d 'A child'\n" ++
        "complete -c app -f -n '__fish_app_no_subcommand'  -s v -l verbose -d 'be verbose'\n") := rfl
    rw [genFishCompletion_eq, hw, ok_bind]
    apply writeTo_acceptAll
    rw [String.append_assoc]
    exact append_ne_empty _ _ (writeFishPreamble_ne_empty verboseTree 0)
  · have hw : writeFishCommandCompletion (removeVerbose verboseTree 0) 1 2 0 0
        (writeFishPreamble (removeVerbose verboseTree 0) 0 "") =
        .ok (writeFishPreamble verboseTree 0 "" ++
        "complete -c app -f -n '__fish_app_no_subcommand' -a child -d 'A child'\n") := rfl
    rw [genFishCompletion_eq, hw, ok_bind]
    apply writeTo_acceptAll
    exact append_ne_empty _ _ (writeFishPreamble_ne_empty verboseTree 0)

/-! ### The claims on the conditions, the flag lines and the preamble -/

/-- C2. The subcommand-listing condition is `-n '`, the conjuncts joined with
`; and `, and `'`. The first conjunct is `__fish_<root>_no_subcommand` at the root
and `__fish_seen_subcommand_from <subCommandPath>` elsewhere (the condition fails
when `subCommandPath` does); the others are `not __fish_<root>_has_flag <name>`,
one per local non-persistent flag of `cmd` in visiting order, and nothing else. -/
theorem commandCompletionCondition_conjuncts (h : Heap) (fuel : Nat) (rootCmd cmd : Ptr) :
    commandCompletionCondition h fuel rootCmd cmd =
      (if rootCmd = cmd then
          Except.ok ("__fish_" ++ (h rootCmd).Name ++ "_no_subcommand")
        else
          (subCommandPath h fuel rootCmd cmd).map
            (fun path => "__fish_seen_subcommand_from " ++ path)).map
        (fun first => "-n '" ++ String.intercalate "; and "
          (first :: (h cmd).LocalNonPersistentFlags.map
            (fun f => "not __fish_" ++ (h rootCmd).Name ++ "_has_flag " ++ f.Name)) ++ "'") :=
  commandCompletionCondition_eq h fuel rootCmd cmd

/-- C6. `writeCommandFlagsCompletion` appends one line per completable flag and
none for a flag with `nonCompletableFlag`: the lines of the completable
non-inherited flags in visiting order, then those of the completable inherited
flags in visiting order, all under the one condition `completionCondition
rootCmd cmd`. When that condition fails, the run fails, unless there is no
completable flag, in which case nothing is appended. -/
theorem writeCommandFlagsCompletion_lines (h : Heap) (fuel : Nat) (rootCmd cmd : Ptr)
    (buf : String) :
    writeCommandFlagsCompletion h fuel rootCmd cmd buf =
      (match completionCondition h fuel rootCmd cmd with
      | .ok condition =>
        .ok (buf ++ String.join
          ((completableFlags (h cmd).NonInheritedFlags ++
            completableFlags (h cmd).InheritedFlags).map (flagLine h rootCmd condition)))
      | .error e =>
        if completableFlags (h cmd).NonInheritedFlags ++
            completableFlags (h cmd).InheritedFlags = [] then .ok buf
        else .error e) ∧
    (∀ flags : List Flag,
      completableFlags flags = flags.filter (fun flag => nonCompletableFlag flag = false)) := by
  refine ⟨writeCommandFlagsCompletion_eq h fuel rootCmd cmd buf, ?_⟩
  intro flags
  unfold completableFlags
  apply List.filter_congr
  intro flag _
  cases nonCompletableFlag flag <;> simp

/-- C7. The preamble is the text of two function definitions, named
`__fish_<root>_no_subcommand` and `__fish_<root>_has_flag`; the words after
`contains -- $i` in the first are the names of the visible subcommands of the
root in listed order, joined by single spaces, where a visible subcommand is one
the root lists itself, available and not the help command of the root. -/
theorem writeFishPreamble_text (h : Heap) (cmd : Ptr) (buf : String) :
    writeFishPreamble h cmd buf =
      buf ++ ("\nfunction " ++ ("__fish_" ++ (h cmd).Name ++ "_no_subcommand") ++
        " --description 'Test if oly has yet to be given the subcommand'\n" ++
        "\tfor i in (commandline -opc)\n" ++
        "\t\tif contains -- $i " ++
        String.intercalate " " ((visibleCommands h cmd).map (fun c => (h c).Name)) ++ "\n" ++
        "\t\t\treturn 1\n\t\tend\n\tend\n\treturn 0\nend\n" ++
        "function " ++ ("__fish_" ++ (h cmd).Name ++ "_has_flag") ++ "\n" ++
        "  for i in (commandline -opc)\n" ++
        "\t\tif contains -- \"--$1\" $i\n" ++
        "\t\t\treturn 0\n\t\tend\n\tend\n\treturn 1\nend\n") ∧
    (∀ c, c ∈ visibleCommands h cmd ↔
      c ∈ (h cmd).Commands ∧ (h c).IsAvailableCommand = true ∧ (h cmd).helpCommand ≠ some c) :=
  ⟨writeFishPreamble_eq h cmd buf, mem_visibleCommands h cmd⟩

/-- The path of `add` under `remote` in `toolTree`. -/
theorem subCommandPath_joins_chain_witness :
    wellFormed toolTree 3 0 = true ∧ descends toolTree 0 ([1] ++ [5]) = true ∧
    subCommandPath toolTree 2 0 5 =
      .ok (String.intercalate " " (([1] ++ [5]).map (fun a => (toolTree a).Name))) ∧
    subCommandPath toolTree 2 0 5 = .ok "remote add" :=
  ⟨rfl, rfl, (subCommandPath_joins_chain toolTree 3 0 [1] 5 rfl rfl).2.1 2 (by decide), rfl⟩

/-! ### In a well-formed tree the walker returns -/

theorem mapM_ok_of_forall {α β ε : Type} (f : α → Except ε β) (l : List α)
    (hf : ∀ a ∈ l, ∃ t, f a = .ok t) : ∃ ts, l.mapM f = .ok ts := by
  induction l with
  | nil => exact ⟨[], by rw [List.mapM_nil]; rfl⟩
  | cons a l ih =>
    obtain ⟨t, ht⟩ := hf a (by simp)
    obtain ⟨ts, hts⟩ := ih (fun b hb => hf b (List.mem_cons_of_mem a hb))
    exact ⟨t :: ts, by rw [List.mapM_cons, ht, hts]; rfl⟩

theorem subCommandPath_ok (h : Heap) (depth : Nat) (r : Ptr) (above : List Ptr) (n : Ptr)
    (fuel : Nat) (hwf : wellFormed h depth r = true)
    (hdesc : descends h r (above ++ [n]) = true) (hfuel : depth ≤ fuel) :
    ∃ path, subCommandPath h fuel r n = .ok path := by
  have hchain := wellFormed_chain h (above ++ [n]) depth r hwf hdesc
  have hnot : r ∉ above := fun hm =>
    wellFormed_not_mem h depth r (above ++ [n]) hwf hdesc (by simp [hm])
  have hlen := (wellFormed_descends h above depth r n hwf hdesc).1
  exact ⟨_, (subCommandPathLoop_chain h r above n [] fuel hchain hnot).1 (by omega)⟩

theorem firstConjunct_ok (h : Heap) (depth : Nat) (r : Ptr) (above : List Ptr) (n : Ptr)
    (fuel : Nat) (hwf : wellFormed h depth r = true)
    (hreach : n = r ∨ descends h r (above ++ [n]) = true) (hfuel : depth ≤ fuel) :
    ∃ first, firstConjunct h fuel r n = .ok first := by
  unfold firstConjunct
  by_cases hrn : r = n
  · exact ⟨_, by rw [if_pos hrn]⟩
  · rw [if_neg hrn]
    rcases hreach with hh | hh
    · exact absurd hh.symm hrn
    · obtain ⟨path, hp⟩ := subCommandPath_ok h depth r above n fuel hwf hh hfuel
      exact ⟨_, by rw [hp]; rfl⟩

theorem writeFishCommandCompletion_ok (h : Heap) (pathFuel depth : Nat) (r : Ptr)
    (hwf : wellFormed h depth r = true) (hpf : depth ≤ pathFuel) :
    ∀ (fuel k : Nat) (above : List Ptr) (cmd : Ptr) (buf : String),
      (cmd = r ∨ descends h r (above ++ [cmd]) = true) →
      wellFormed h k cmd = true → k ≤ fuel →
      ∃ out, writeFishCommandCompletion h pathFuel fuel r cmd buf = .ok out := by
  intro fuel
  induction fuel with
  | zero =>
    intro k above cmd buf _ hk hle
    have := wellFormed_pos h k cmd hk
    omega
  | succ m ih =>
    intro k above cmd buf hreach hk hle
    obtain ⟨k', rfl⟩ : ∃ k', k = k' + 1 := ⟨k - 1, by have := wellFormed_pos h k cmd hk; omega⟩
    obtain ⟨first, hfirst⟩ := firstConjunct_ok h depth r above cmd pathFuel hwf hreach hpf
    have hccc : ∃ c, commandCompletionCondition h pathFuel r cmd = .ok c :=
      ⟨_, by rw [commandCompletionCondition_first, hfirst]; rfl⟩
    have hcc : ∃ c, completionCondition h pathFuel r cmd = .ok c :=
      ⟨_, by rw [completionCondition_first, hfirst]; rfl⟩
    obtain ⟨c₁, hc₁⟩ := hccc
    obtain ⟨c₂, hc₂⟩ := hcc
    obtain ⟨lines, hlines⟩ := mapM_ok_of_forall
      (fun c => (commandCompletionCondition h pathFuel r cmd).map
        (fun condition => subCommandLine h r condition c)) (visibleCommands h cmd)
      (fun a _ => ⟨_, by rw [hc₁]; rfl⟩)
    have hflags : ∃ t, writeCommandFlagsCompletion h pathFuel r cmd "" = .ok t :=
      ⟨_, by rw [writeCommandFlagsCompletion_eq, hc₂]⟩
    obtain ⟨flagLines, hfl⟩ := hflags
    obtain ⟨subtrees, hsub⟩ := mapM_ok_of_forall
      (fun c => writeFishCommandCompletion h pathFuel m r c "") (visibleCommands h cmd)
      (fun a ha => by
        have hmem := ((mem_visibleCommands h cmd a).1 ha).1
        have hsubwf := (wellFormed_sub h k' cmd a hk hmem).2
        have hreach' : a = r ∨ descends h r
            ((if cmd = r then [] else above ++ [cmd]) ++ [a]) = true := by
          right
          by_cases hcr : cmd = r
          · subst hcr
            simp [descends, hmem]
          · rw [if_neg hcr]
            rcases hreach with hh | hh
            · exact absurd hh hcr
            · rw [List.append_assoc, List.singleton_append]
              exact (descends_append h above cmd [a] r).2 ⟨hh, by simp [descends, hmem]⟩
        exact ih k' _ a "" hreach' hsubwf (by omega))
    exact ⟨_, by
      rw [writeFishCommandCompletion_unfold, hlines, hfl, hsub]
      rfl⟩

/-! ### The walker's text -/

/-- C1. With fuel for one more level, the text `writeFishCommandCompletion`
appends for `cmd` is the concatenation, in this order, of (1) one subcommand line
per visible subcommand of `cmd` in listed order, each under the condition
`commandCompletionCondition rootCmd cmd` of `cmd` itself, (2) the flag lines of
`cmd` written by `writeCommandFlagsCompletion`, (3) the texts of the walker for
the visible subcommands in the same order; the run fails exactly when one of the
parts fails, in this order. Hence for two visible subcommands `a` listed before
`b`, the line of `a` stands before the line of `b`, and the whole text of `a`
before the whole text of `b`. In a well-formed tree under `rootCmd`, for `cmd`
the root or a command reached from it through listed subcommands, the walker
returns a text as soon as both fuels reach the depth bound of the tree. -/
theorem writeFishCommandCompletion_three_parts (h : Heap) (pathFuel fuel : Nat)
    (rootCmd cmd : Ptr) (buf : String) :
    writeFishCommandCompletion h pathFuel (fuel + 1) rootCmd cmd buf =
      ((visibleCommands h cmd).mapM
        (fun c => (commandCompletionCondition h pathFuel rootCmd cmd).map
          (fun condition => subCommandLine h rootCmd condition c)) >>= fun lines =>
        writeCommandFlagsCompletion h pathFuel rootCmd cmd "" >>= fun flagLines =>
          (visibleCommands h cmd).mapM
            (fun c => writeFishCommandCompletion h pathFuel fuel rootCmd c "") >>= fun subtrees =>
            pure (buf ++ (String.join lines ++ flagLines ++ String.join subtrees))) ∧
    (∀ (l₁ l₂ l₃ : List Ptr) (a b : Ptr) (out : String),
      visibleCommands h cmd = l₁ ++ a :: l₂ ++ b :: l₃ →
      writeFishCommandCompletion h pathFuel (fuel + 1) rootCmd cmd buf = .ok out →
      ∃ condition flagLines subtreeA subtreeB pre mid post pre' mid' post',
        commandCompletionCondition h pathFuel rootCmd cmd = .ok condition ∧
        writeCommandFlagsCompletion h pathFuel rootCmd cmd "" = .ok flagLines ∧
        writeFishCommandCompletion h pathFuel fuel rootCmd a "" = .ok subtreeA ∧
        writeFishCommandCompletion h pathFuel fuel rootCmd b "" = .ok subtreeB ∧
        out = buf ++
          ((pre ++ subCommandLine h rootCmd condition a ++ mid ++
              subCommandLine h rootCmd condition b ++ post) ++
            flagLines ++
            (pre' ++ subtreeA ++ mid' ++ subtreeB ++ post'))) ∧
    ∀ (depth : Nat) (above : List Ptr), wellFormed h depth rootCmd = true →
      (cmd = rootCmd ∨ descends h rootCmd (above ++ [cmd]) = true) →
      depth ≤ pathFuel → depth ≤ fuel + 1 →
      ∃ out, writeFishCommandCompletion h pathFuel (fuel + 1) rootCmd cmd buf = .ok out := by
  refine ⟨writeFishCommandCompletion_unfold h pathFuel fuel rootCmd cmd buf, ?_, ?_⟩
  swap
  · intro depth above hwf hreach hpf hfuel
    rcases hreach with hh | hh
    · subst hh
      exact writeFishCommandCompletion_ok h pathFuel depth cmd hwf hpf (fuel + 1) depth [] cmd buf
        (Or.inl rfl) hwf hfuel
    · obtain ⟨_, hk⟩ := wellFormed_descends h above depth rootCmd cmd hwf hh
      exact writeFishCommandCompletion_ok h pathFuel depth rootCmd hwf hpf (fuel + 1)
        (depth - (above.length + 1)) above cmd buf (Or.inr hh) hk (by omega)
  intro l₁ l₂ l₃ a b out hvis hout
  rw [writeFishCommandCompletion_unfold] at hout
  cases hl : (visibleCommands h cmd).mapM
      (fun c => (commandCompletionCondition h pathFuel rootCmd cmd).map
        (fun condition => subCommandLine h rootCmd condition c)) with
  | error e => rw [hl] at hout; cases hout
  | ok lines =>
    cases hf : writeCommandFlagsCompletion h pathFuel rootCmd cmd "" with
    | error e => rw [hl, hf] at hout; cases hout
    | ok flagLines =>
      cases hs : (visibleCommands h cmd).mapM
          (fun c => writeFishCommandCompletion h pathFuel fuel rootCmd c "") with
      | error e => rw [hl, hf, hs] at hout; cases hout
      | ok subtrees =>
        rw [hl, hf, hs] at hout
        have hout' : out = buf ++ (String.join lines ++ flagLines ++ String.join subtrees) := by
          cases hout; rfl
        rw [hvis] at hl hs
        obtain ⟨ta, tb, pre, mid, post, hta, htb, hjl⟩ := mapM_two_ok _ l₁ l₂ l₃ a b lines hl
        obtain ⟨sa, sb, pre', mid', post', hsa, hsb, hjs⟩ :=
          mapM_two_ok _ l₁ l₂ l₃ a b subtrees hs
        cases hc : commandCompletionCondition h pathFuel rootCmd cmd with
        | error e => rw [hc] at hta; cases hta
        | ok condition =>
          rw [hc] at hta htb
          have hta' : ta = subCommandLine h rootCmd condition a := by cases hta; rfl
          have htb' : tb = subCommandLine h rootCmd condition b := by cases htb; rfl
          refine ⟨condition, flagLines, sa, sb, pre, mid, post, pre', mid', post',
            rfl, rfl, hsa, hsb, ?_⟩
          rw [hout', hjl, hjs, hta', htb']

set_option maxRecDepth 100000 in
/-- The two visible subcommands `remote` and `build` of the root of `toolTree`. -/
theorem writeFishCommandCompletion_three_parts_witness :
    visibleCommands toolTree 0 = [] ++ 1 :: [] ++ 3 :: [] ∧
    writeFishCommandCompletion toolTree 3 (2 + 1) 0 0 "" =
      .ok "complete -c tool -f -n '__fish_tool_no_subcommand; and not __fish_tool_has_flag verbose' -a remote -d 'Manage remotes'\ncomplete -c tool -f -n '__fish_tool_no_subcommand; and not __fish_tool_has_flag verbose' -a build -d 'Build the project'\ncomplete -c tool -f -n '__fish_tool_no_subcommand'  -s v -l verbose -d 'be verbose'\ncomplete -c tool -f -n '__fish_seen_subcommand_from remote' -a add -d 'Add a remote'\ncomplete -c tool -f -n '__fish_seen_subcommand_from remote' -r -s o -l output -d 'output path'\ncomplete -c tool -f -n '__fish_seen_subcommand_from build' -r -s o -l output -d 'output path'\n" ∧
    wellFormed toolTree 3 0 = true ∧
    (∃ out, writeFishCommandCompletion toolTree 3 (2 + 1) 0 0 "" = .ok out) ∧
    ∃ condition flagLines subtreeA subtreeB pre mid post pre' mid' post',
      commandCompletionCondition toolTree 3 0 0 = .ok condition ∧
      writeCommandFlagsCompletion toolTree 3 0 0 "" = .ok flagLines ∧
      writeFishCommandCompletion toolTree 3 2 0 1 "" = .ok subtreeA ∧
      writeFishCommandCompletion toolTree 3 2 0 3 "" = .ok subtreeB ∧
      "complete -c tool -f -n '__fish_tool_no_subcommand; and not __fish_tool_has_flag verbose' -a remote -d 'Manage remotes'\ncomplete -c tool -f -n '__fish_tool_no_subcommand; and not __fish_tool_has_flag verbose' -a build -d 'Build the project'\ncomplete -c tool -f -n '__fish_tool_no_subcommand'  -s v -l verbose -d 'be verbose'\ncomplete -c tool -f -n '__fish_seen_subcommand_from remote' -a add -d 'Add a remote'\ncomplete -c tool -f -n '__fish_seen_subcommand_from remote' -r -s o -l output -d 'output path'\ncomplete -c tool -f -n '__fish_seen_subcommand_from build' -r -s o -l output -d 'output path'\n" =
        "" ++
          ((pre ++ subCommandLine toolTree 0 condition 1 ++ mid ++
              subCommandLine toolTree 0 condition 3 ++ post) ++
            flagLines ++
            (pre' ++ subtreeA ++ mid' ++ subtreeB ++ post')) :=
  ⟨rfl, rfl, rfl,
    (writeFishCommandCompletion_three_parts toolTree 3 2 0 0 "").2.2 3 [] rfl (Or.inl rfl)
      (by decide) (by decide),
    (writeFishCommandCompletion_three_parts toolTree 3 2 0 0 "").2.1 [] [] [] 1 3 _ rfl rfl⟩

/-! ### The format of a line -/

/-- C16. The line of a flag is `complete -c <root name> -f <condition> <marker>
<shorthand portion> -l <flag name> -d '<usage>'` and a newline, the condition
being `completionCondition rootCmd cmd`; the shorthand portion is `-s <shorthand>`
exactly when the shorthand is not empty and is empty otherwise, the separating
spaces staying; name and usage are those of the flag, as they are. -/
theorem flag_line_format (h : Heap) (fuel : Nat) (rootCmd cmd : Ptr) (buf : String)
    (flag : Flag) :
    ∃ portion : String,
      (portion = "-s " ++ flag.Shorthand ↔ flag.Shorthand ≠ "") ∧
      (portion = "" ↔ flag.Shorthand = "") ∧
      writeCommandFlagCompletion h fuel rootCmd cmd buf flag =
        (completionCondition h fuel rootCmd cmd).map
          (fun condition => buf ++ ("complete -c " ++ (h rootCmd).Name ++ " -f " ++ condition ++
            " " ++ flagRequiresArgumentCompletion flag ++ " " ++ portion ++
            " -l " ++ flag.Name ++ " -d '" ++ flag.Usage ++ "'\n")) := by
  refine ⟨if flag.Shorthand = "" then "" else "-s " ++ flag.Shorthand, ?_, ?_, ?_⟩
  · by_cases hs : flag.Shorthand = ""
    · simp [hs]
    · simp [hs]
  · by_cases hs : flag.Shorthand = ""
    · simp [hs]
    · simp only [hs, if_false, iff_false]
      exact append_ne_empty _ _ (by decide)
  · rw [writeCommandFlagCompletion_eq]
    unfold flagLine flagRequiresArgumentCompletion
    by_cases hh : flag.ValueType = "bool" <;> simp [hh]

/-- C11, amended. The usage text of a flag and the short description of a
subcommand are embedded as they are, without escaping, between ` -d '` and the
closing quote of their line: a flag line is `flagLine`, which ends with ` -d '`,
the usage and `'`, and a subcommand line is `subCommandLine`, which ends with
` -d '`, the short description and `'`. A text without a single quote therefore
gives a literal closed by the line's own final quote only, and a text with one is
embedded with it. -/
theorem description_embedded_verbatim (h : Heap) (pathFuel : Nat) (rootCmd cmd : Ptr)
    (buf : String) (flag : Flag) (condition : String) (subCmd : Ptr) :
    writeCommandFlagCompletion h pathFuel rootCmd cmd buf flag =
      (completionCondition h pathFuel rootCmd cmd).map
        (fun condition => buf ++ flagLine h rootCmd condition flag) ∧
    (∃ front, flagLine h rootCmd condition flag = front ++ " -d '" ++ flag.Usage ++ "'\n") ∧
    (∃ front, subCommandLine h rootCmd condition subCmd =
      front ++ " -d '" ++ (h subCmd).Short ++ "'\n") ∧
    (∀ fuel, writeFishCommandCompletion h pathFuel (fuel + 1) rootCmd cmd buf =
      ((visibleCommands h cmd).mapM
        (fun c => (commandCompletionCondition h pathFuel rootCmd cmd).map
          (fun condition => subCommandLine h rootCmd condition c)) >>= fun lines =>
        writeCommandFlagsCompletion h pathFuel rootCmd cmd "" >>= fun flagLines =>
          (visibleCommands h cmd).mapM
            (fun c => writeFishCommandCompletion h pathFuel fuel rootCmd c "") >>= fun subtrees =>
            pure (buf ++ (String.join lines ++ flagLines ++ String.join subtrees)))) := by
  refine ⟨writeCommandFlagCompletion_eq h pathFuel rootCmd cmd buf flag, ⟨_, rfl⟩, ⟨_, rfl⟩, ?_⟩
  intro fuel
  exact writeFishCommandCompletion_unfold h pathFuel fuel rootCmd cmd buf

/-- C11, as stated, fails on `quoteTree`: the single quote of the short
description `Don't panic` and the one of the usage `don't ask` stand bare inside
the `-d '...'` literal of their lines. -/
theorem quote_not_escaped :
    writeFishCommandCompletion quoteTree 1 2 0 0 "" =
      .ok ("complete -c app -f -n '__fish_app_no_subcommand' -a init -d 'Don't panic'\n" ++
        "complete -c app -f -n '__fish_app_no_subcommand'   -l force -d 'don't ask'\n") ∧
    (quoteTree 1).Short = "Don't panic" ∧ quoteChar ∈ (quoteTree 1).Short.data ∧
    quoteFlag.Usage = "don't ask" ∧ quoteChar ∈ quoteFlag.Usage.data ∧
    "complete -c app -f -n '__fish_app_no_subcommand' -a init -d 'Don't panic'\n" =
      "complete -c app -f -n '__fish_app_no_subcommand' -a init" ++ " -d '" ++
        ("Don" ++ String.singleton quoteChar ++ "t panic") ++ "'\n" ∧
    "complete -c app -f -n '__fish_app_no_subcommand'   -l force -d 'don't ask'\n" =
      "complete -c app -f -n '__fish_app_no_subcommand'   -l force" ++ " -d '" ++
        ("don" ++ String.singleton quoteChar ++ "t ask") ++ "'\n" := by
  refine ⟨rfl, rfl, by decide, rfl, by decide, by decide, by decide⟩

/-! ### The sink -/

theorem writeTo_handed (buf : String) (w : Writer) (r : List String × Option String)
    (hne : buf ≠ "") (hr : WriteTo buf w = .ok r) : r.1 = [buf] := by
  have hpos := (utf8ByteSize_pos_iff buf).2 hne
  unfold WriteTo at hr
  have h₁ : ((buf.utf8ByteSize : Int) > 0) := by omega
  simp only [h₁, if_true] at hr
  cases hwb : w buf with
  | mk m e =>
    rw [hwb] at hr
    simp only at hr
    by_cases h₂ : m > (buf.utf8ByteSize : Int)
    · simp [h₂] at hr
    · simp only [h₂, if_false] at hr
      cases e with
      | some err => cases hr; rfl
      | none =>
        simp only at hr
        by_cases h₃ : m = (buf.utf8ByteSize : Int)
        · simp [h₃] at hr; rw [← hr]
        · simp [h₃] at hr; rw [← hr]

theorem writeFishCommandCompletion_preamble (h : Heap) (pathFuel fuel : Nat) (root : Ptr)
    (text : String) (ht : writeFishCommandCompletion h pathFuel fuel root root "" = .ok text) :
    writeFishCommandCompletion h pathFuel fuel root root (writeFishPreamble h root "") =
      .ok (writeFishPreamble h root "" ++ text) := by
  rw [writeFishCommandCompletion_buf, ht]
  rfl

theorem visiblyDescends_descends (h : Heap) (chain : List Ptr) :
    ∀ cmd, visiblyDescends h cmd chain = true → descends h cmd chain = true := by
  induction chain with
  | nil => intro _ _; rfl
  | cons a l ih =>
    intro cmd hv
    simp only [visiblyDescends, Bool.and_eq_true, decide_eq_true_eq] at hv
    simp only [descends, Bool.and_eq_true, decide_eq_true_eq]
    exact ⟨((mem_visibleCommands h cmd a).1 hv.1).1, ih a hv.2⟩

theorem visiblyDescends_append (h : Heap) (l₁ : List Ptr) (b : Ptr) (l₂ : List Ptr) (cmd : Ptr) :
    visiblyDescends h cmd (l₁ ++ b :: l₂) = true ↔
      visiblyDescends h cmd (l₁ ++ [b]) = true ∧ visiblyDescends h b l₂ = true := by
  induction l₁ generalizing cmd with
  | nil => simp [visiblyDescends]
  | cons a l ih => simp [visiblyDescends, ih, and_assoc]

theorem mem_visited (h : Heap) :
    ∀ (fuel : Nat) (cmd x : Ptr), x ∈ visited h fuel cmd →
      x = cmd ∨ ∃ above, visiblyDescends h cmd (above ++ [x]) = true := by
  intro fuel
  induction fuel with
  | zero => intro cmd x hx; simp [visited] at hx
  | succ n ih =>
    intro cmd x hx
    simp only [visited, List.mem_cons, List.mem_flatMap] at hx
    rcases hx with hx | ⟨c, hc, hxc⟩
    · exact Or.inl hx
    · right
      rcases ih c x hxc with heq | ⟨above, ha⟩
      · subst heq
        exact ⟨[], by simp [visiblyDescends, hc]⟩
      · exact ⟨c :: above, by simp [visiblyDescends, hc, ha]⟩

theorem mem_subCommandPathCalls (h : Heap) (rootCmd : Ptr) :
    ∀ (fuel : Nat) (cmd n : Ptr), n ∈ subCommandPathCalls h fuel rootCmd cmd →
      n ≠ rootCmd ∧ n ∈ visited h fuel cmd := by
  intro fuel
  induction fuel with
  | zero => intro cmd n hn; simp [subCommandPathCalls] at hn
  | succ m ih =>
    intro cmd n hn
    have hcond : ∀ x, x ∈ conditionPathCalls rootCmd cmd → x ≠ rootCmd ∧ x = cmd := by
      intro x hx
      unfold conditionPathCalls at hx
      by_cases hrc : rootCmd = cmd
      · simp [hrc] at hx
      · simp only [ne_eq, hrc, not_false_eq_true, if_true, List.mem_singleton] at hx
        subst hx
        exact ⟨fun hh => hrc hh.symm, rfl⟩
    simp only [subCommandPathCalls, List.mem_append, List.mem_flatMap] at hn
    rcases hn with (⟨_, _, hx⟩ | ⟨_, _, hx⟩) | ⟨c, hc, hx⟩
    · obtain ⟨h₁, h₂⟩ := hcond n hx
      exact ⟨h₁, by simp [visited, h₂]⟩
    · obtain ⟨h₁, h₂⟩ := hcond n hx
      exact ⟨h₁, by simp [visited, h₂]⟩
    · obtain ⟨h₁, h₂⟩ := ih c n hx
      refine ⟨h₁, ?_⟩
      simp only [visited, List.mem_cons, List.mem_flatMap]
      exact Or.inr ⟨c, hc, h₂⟩

theorem condition_at_root (h : Heap) (pathFuel : Nat) (root : Ptr) :
    commandCompletionCondition h pathFuel root root =
      .ok ("-n '" ++ String.intercalate "; and "
        (("__fish_" ++ (h root).Name ++ "_no_subcommand") ::
          (h root).LocalNonPersistentFlags.map (negatedCheck h root)) ++ "'") ∧
    completionCondition h pathFuel root root =
      .ok ("-n '__fish_" ++ (h root).Name ++ "_no_subcommand'") := by
  constructor
  · rw [commandCompletionCondition_first]
    simp [firstConjunct, Except.map]
  · rw [completionCondition_eq]
    simp

/-- C12. In a well-formed tree under `root`: at the root neither condition
builder calls `subCommandPath`, and both return with any fuel; every invocation
of `subCommandPath` during the walk has as second argument a command `n` other
than the root that descends from it through a chain of listed subcommands, and
it returns with as many iterations of the loop as the chain is long and runs out
of fuel with fewer; the generator reaches the write to the sink whenever both
fuels reach the depth bound of the tree. -/
theorem subCommandPath_calls_terminate (h : Heap) (depth : Nat) (root : Ptr)
    (hwf : wellFormed h depth root = true) :
    conditionPathCalls root root = [] ∧
    (∃ c₁ c₂, ∀ pathFuel,
      commandCompletionCondition h pathFuel root root = .ok c₁ ∧
      completionCondition h pathFuel root root = .ok c₂) ∧
    (∀ (fuel : Nat) (n : Ptr), n ∈ subCommandPathCalls h fuel root root →
      n ≠ root ∧
      ∃ above, descends h root (above ++ [n]) = true ∧
        (∀ pathFuel, (above ++ [n]).length ≤ pathFuel →
          ∃ path, subCommandPath h pathFuel root n = .ok path) ∧
        (∀ pathFuel, pathFuel < (above ++ [n]).length →
          subCommandPath h pathFuel root n = .error .outOfFuel)) ∧
    (∀ (pathFuel fuel : Nat) (w : Writer), depth ≤ pathFuel → depth ≤ fuel →
      ∃ script, GenFishCompletion h pathFuel fuel root w = WriteTo script w) := by
  refine ⟨by simp [conditionPathCalls], ⟨_, _, fun pf => condition_at_root h pf root⟩, ?_, ?_⟩
  · intro fuel n hn
    obtain ⟨hne, hv⟩ := mem_subCommandPathCalls h root fuel root n hn
    refine ⟨hne, ?_⟩
    rcases mem_visited h fuel root n hv with heq | ⟨above, ha⟩
    · exact absurd heq hne
    · have hd := visiblyDescends_descends h _ root ha
      have hchain := wellFormed_chain h (above ++ [n]) depth root hwf hd
      have hnot : root ∉ above := fun hm =>
        wellFormed_not_mem h depth root (above ++ [n]) hwf hd (by simp [hm])
      refine ⟨above, hd, ?_, ?_⟩
      · intro pf hpf
        exact ⟨_, (subCommandPathLoop_chain h root above n [] pf hchain hnot).1
          (by simpa using hpf)⟩
      · intro pf hpf
        exact (subCommandPathLoop_chain h root above n [] pf hchain hnot).2 (by simpa using hpf)
  · intro pf fuel w hpf hfuel
    obtain ⟨text, ht⟩ := writeFishCommandCompletion_ok h pf depth root hwf hpf fuel depth []
      root "" (Or.inl rfl) hwf hfuel
    exact ⟨_, by rw [genFishCompletion_eq,
      writeFishCommandCompletion_preamble h pf fuel root text ht, ok_bind]⟩

/-- The invocations of `subCommandPath` on `deepTree`: one for `remote`, one for
`add`, the latter with two iterations of the loop. -/
theorem subCommandPath_calls_terminate_witness :
    wellFormed deepTree 3 0 = true ∧
    subCommandPathCalls deepTree 3 0 0 = [1, 2] ∧
    subCommandPath deepTree 2 0 2 = .ok "remote add" ∧
    subCommandPath deepTree 1 0 2 = .error .outOfFuel ∧
    (2 ≠ 0 ∧
      ∃ above, descends deepTree 0 (above ++ [2]) = true ∧
        (∀ pathFuel, (above ++ [2]).length ≤ pathFuel →
          ∃ path, subCommandPath deepTree pathFuel 0 2 = .ok path) ∧
        (∀ pathFuel, pathFuel < (above ++ [2]).length →
          subCommandPath deepTree pathFuel 0 2 = .error .outOfFuel)) :=
  ⟨rfl, rfl, rfl, rfl,
    (subCommandPath_calls_terminate deepTree 3 0 rfl).2.2.1 3 2 (by decide)⟩

/-! ### One chain leads to every command of a well-formed tree -/

theorem parent_of_last (h : Heap) (depth : Nat) (cmd : Ptr) (above : List Ptr) (p x : Ptr)
    (hwf : wellFormed h depth cmd = true)
    (hd : descends h cmd (above ++ [p] ++ [x]) = true) : (h x).Parent = some p := by
  have hc := wellFormed_chain h _ depth cmd hwf hd
  rw [List.append_assoc, List.singleton_append] at hc
  have := (List.chain_split.1 hc).2
  simp only [List.chain_cons] at this
  exact this.1

theorem parent_of_first (h : Heap) (depth : Nat) (cmd x : Ptr)
    (hwf : wellFormed h depth cmd = true)
    (hd : descends h cmd ([] ++ [x]) = true) : (h x).Parent = some cmd := by
  have hc := wellFormed_chain h _ depth cmd hwf hd
  simp only [List.nil_append, List.chain_cons] at hc
  exact hc.1

theorem descends_unique (h : Heap) (depth : Nat) (cmd : Ptr)
    (hwf : wellFormed h depth cmd = true) (l₁ : List Ptr) :
    ∀ (l₂ : List Ptr) (x : Ptr), descends h cmd (l₁ ++ [x]) = true →
      descends h cmd (l₂ ++ [x]) = true → l₁ = l₂ := by
  induction l₁ using List.reverseRecOn with
  | nil =>
    intro l₂ x h₁ h₂
    rcases l₂.eq_nil_or_concat with rfl | ⟨l, p, rfl⟩
    · rfl
    · rw [List.concat_eq_append] at h₂ ⊢
      have e₁ := parent_of_first h depth cmd x hwf h₁
      have e₂ := parent_of_last h depth cmd l p x hwf h₂
      rw [e₁] at e₂
      have hp : cmd = p := Option.some.inj e₂
      exact absurd (by simp [hp]) (wellFormed_not_mem h depth cmd _ hwf h₂)
  | append_singleton l p₁ ih =>
    intro l₂ x h₁ h₂
    rcases l₂.eq_nil_or_concat with rfl | ⟨l', p₂, rfl⟩
    · have e₁ := parent_of_first h depth cmd x hwf h₂
      have e₂ := parent_of_last h depth cmd l p₁ x hwf h₁
      rw [e₁] at e₂
      have hp : cmd = p₁ := Option.some.inj e₂
      exact absurd (by simp [hp]) (wellFormed_not_mem h depth cmd _ hwf h₁)
    · rw [List.concat_eq_append] at h₂ ⊢
      have e₁ := parent_of_last h depth cmd l p₁ x hwf h₁
      have e₂ := parent_of_last h depth cmd l' p₂ x hwf h₂
      rw [e₁] at e₂
      have hp : p₁ = p₂ := Option.some.inj e₂
      subst hp
      rw [List.append_assoc, List.singleton_append] at h₁ h₂
      have d₁ := ((descends_append h l p₁ [x] cmd).1 h₁).1
      have d₂ := ((descends_append h l' p₁ [x] cmd).1 h₂).1
      rw [ih l' p₁ d₁ d₂]

/-! ### Trees that the generator cannot tell apart -/

theorem ownText_congr (h h' : Heap)
    (hn : ∀ p, (h' p).Name = (h p).Name) (hs : ∀ p, (h' p).Short = (h p).Short)
    (hp : ∀ p, (h' p).Parent = (h p).Parent)
    (hf₁ : ∀ p, (h' p).NonInheritedFlags = (h p).NonInheritedFlags)
    (hf₂ : ∀ p, (h' p).InheritedFlags = (h p).InheritedFlags)
    (hf₃ : ∀ p, (h' p).LocalNonPersistentFlags = (h p).LocalNonPersistentFlags)
    (hv : ∀ p, visibleCommands h' p = visibleCommands h p)
    (pathFuel : Nat) (rootCmd cmd : Ptr) :
    ownText h' pathFuel rootCmd cmd = ownText h pathFuel rootCmd cmd := by
  have hpath : ∀ c, subCommandPath h' pathFuel rootCmd c = subCommandPath h pathFuel rootCmd c :=
    fun c => subCommandPathLoop_congr h' h rootCmd hn hp pathFuel c []
  have hfirst : firstConjunct h' pathFuel rootCmd cmd = firstConjunct h pathFuel rootCmd cmd := by
    unfold firstConjunct
    rw [hpath, hn]
  have hcheck : negatedCheck h' rootCmd = negatedCheck h rootCmd := by
    funext flag
    unfold negatedCheck
    rw [hn]
  have hline : ∀ condition, subCommandLine h' rootCmd condition =
      subCommandLine h rootCmd condition := by
    intro condition
    funext c
    unfold subCommandLine
    rw [hn, hn, hs]
  have hflag : ∀ condition, flagLine h' rootCmd condition = flagLine h rootCmd condition := by
    intro condition
    funext flag
    unfold flagLine
    rw [hn]
  unfold ownText
  rw [hv, writeCommandFlagsCompletion_eq, writeCommandFlagsCompletion_eq,
    commandCompletionCondition_first, commandCompletionCondition_first,
    completionCondition_first, completionCondition_first, hfirst, hcheck, hf₁, hf₂, hf₃]
  simp only [hline, hflag]

theorem genFishCompletion_congr (h h' : Heap)
    (hn : ∀ p, (h' p).Name = (h p).Name) (hs : ∀ p, (h' p).Short = (h p).Short)
    (hp : ∀ p, (h' p).Parent = (h p).Parent)
    (hf₁ : ∀ p, (h' p).NonInheritedFlags = (h p).NonInheritedFlags)
    (hf₂ : ∀ p, (h' p).InheritedFlags = (h p).InheritedFlags)
    (hf₃ : ∀ p, (h' p).LocalNonPersistentFlags = (h p).LocalNonPersistentFlags)
    (hv : ∀ p, visibleCommands h' p = visibleCommands h p)
    (pathFuel fuel : Nat) (root : Ptr) (w : Writer) :
    GenFishCompletion h' pathFuel fuel root w = GenFishCompletion h pathFuel fuel root w := by
  rw [genFishCompletion_walk, genFishCompletion_walk,
    walk_congr h h' (ownText h pathFuel root) (ownText h' pathFuel root) hv
      (fun c => ownText_congr h h' hn hs hp hf₁ hf₂ hf₃ hv pathFuel root c) fuel root,
    writeFishPreamble_eq, writeFishPreamble_eq, hv, hn]
  have : (fun c => (h' c).Name) = (fun c => (h c).Name) := funext hn
  rw [this]

theorem removeChild_fields (h : Heap) (node child : Ptr) (p : Ptr) :
    (removeChild h node child p).Name = (h p).Name ∧
    (removeChild h node child p).Short = (h p).Short ∧
    (removeChild h node child p).Parent = (h p).Parent ∧
    (removeChild h node child p).IsAvailableCommand = (h p).IsAvailableCommand ∧
    (removeChild h node child p).helpCommand = (h p).helpCommand ∧
    (removeChild h node child p).NonInheritedFlags = (h p).NonInheritedFlags ∧
    (removeChild h node child p).InheritedFlags = (h p).InheritedFlags ∧
    (removeChild h node child p).LocalNonPersistentFlags = (h p).LocalNonPersistentFlags := by
  unfold removeChild
  by_cases hp : p = node
  · subst hp; simp
  · simp [Function.update_noteq hp]

theorem removeChild_Commands (h : Heap) (node child : Ptr) (p : Ptr) :
    (removeChild h node child p).Commands =
      if p = node then (h p).Commands.filter (fun c => decide (c ≠ child)) else (h p).Commands := by
  unfold removeChild
  by_cases hp : p = node
  · subst hp; simp
  · simp [Function.update_noteq hp, hp]

theorem visibleCommands_removeChild (h : Heap) (node child : Ptr)
    (hc : child ∉ visibleCommands h node) (p : Ptr) :
    visibleCommands (removeChild h node child) p = visibleCommands h p := by
  unfold visibleCommands
  rw [(removeChild_fields h node child p).2.2.2.2.1, removeChild_Commands]
  have e : ∀ l : List Ptr, l.filter (fun subCmd =>
      (removeChild h node child subCmd).IsAvailableCommand &&
        !decide (some subCmd = (h p).helpCommand)) =
      l.filter (fun subCmd => (h subCmd).IsAvailableCommand &&
        !decide (some subCmd = (h p).helpCommand)) := by
    intro l
    apply List.filter_congr
    intro x _
    rw [(removeChild_fields h node child x).2.2.2.1]
  rw [e]
  by_cases hp : p = node
  · subst hp
    simp only [if_true, List.filter_filter]
    apply List.filter_congr
    intro x hx
    by_cases hxc : x = child
    · subst hxc
      have : ¬ ((h x).IsAvailableCommand && !decide (some x = (h p).helpCommand)) = true := by
        intro hh
        exact hc (by unfold visibleCommands; exact List.mem_filter.2 ⟨hx, hh⟩)
      simp only [Bool.not_eq_true] at this
      simp [this]
    · simp [hxc]
  · simp [hp]

theorem not_visible_of_excluded (h : Heap) (node child : Ptr)
    (hex : (h child).IsAvailableCommand = false ∨ (h node).helpCommand = some child) :
    child ∉ visibleCommands h node := by
  intro hm
  obtain ⟨_, ha, hh⟩ := (mem_visibleCommands h node child).1 hm
  rcases hex with he | he
  · rw [he] at ha; cases ha
  · exact hh he

/-! ### The excluded subcommands -/

theorem not_visiblyDescends_excluded (h : Heap) (depth : Nat) (root node child : Ptr)
    (above : List Ptr) (hwf : wellFormed h depth root = true)
    (hnode : (node = root ∧ above = []) ∨ (∃ l, above = l ++ [node]))
    (hd : descends h root (above ++ [child]) = true)
    (hc : child ∉ visibleCommands h node) (l : List Ptr)
    (hv : visiblyDescends h root (l ++ [child]) = true) : False := by
  have hl := descends_unique h depth root hwf l above child
    (visiblyDescends_descends h _ root hv) hd
  subst hl
  rcases hnode with ⟨rfl, rfl⟩ | ⟨l', rfl⟩
  · simp only [List.nil_append, visiblyDescends, Bool.and_true, decide_eq_true_eq] at hv
    exact hc hv
  · rw [List.append_assoc, List.singleton_append] at hv
    have := ((visiblyDescends_append h l' node [child] root).1 hv).2
    simp only [visiblyDescends, Bool.and_true, decide_eq_true_eq] at this
    exact hc this

/-- C15. In a well-formed tree under `root`, let `node` (the root or a command
that descends from it) list `child`, and let `child` be unavailable or the help
command of `node`. Then `child` is not a visible subcommand of `node`; the walker
is invoked neither on `child` nor on a command that descends from `child`, and
`subCommandPath` is invoked on none of them; the script is the script of the tree
with `child` taken out of the list of `node`; and `child` is not among the
visible subcommands of the root, whose names are the ones the preamble lists. -/
theorem excluded_child_not_walked (h : Heap) (depth : Nat) (root node child : Ptr)
    (above : List Ptr) (hwf : wellFormed h depth root = true)
    (hnode : (node = root ∧ above = []) ∨ (∃ l, above = l ++ [node]))
    (hd : descends h root (above ++ [child]) = true)
    (hex : (h child).IsAvailableCommand = false ∨ (h node).helpCommand = some child) :
    child ∉ visibleCommands h node ∧
    (∀ (fuel : Nat) (x : Ptr), x ∈ visited h fuel root →
      x ≠ child ∧ ∀ below, descends h child (below ++ [x]) = false) ∧
    (∀ (fuel : Nat) (n : Ptr), n ∈ subCommandPathCalls h fuel root root →
      n ≠ child ∧ ∀ below, descends h child (below ++ [n]) = false) ∧
    (∀ (pathFuel fuel : Nat) (w : Writer),
      GenFishCompletion (removeChild h node child) pathFuel fuel root w =
        GenFishCompletion h pathFuel fuel root w) ∧
    child ∉ visibleCommands h root := by
  have hc := not_visible_of_excluded h node child hex
  have hvis : ∀ (fuel : Nat) (x : Ptr), x ∈ visited h fuel root →
      x ≠ child ∧ ∀ below, descends h child (below ++ [x]) = false := by
    intro fuel x hx
    have hx' := mem_visited h fuel root x hx
    constructor
    · intro hxc
      subst hxc
      rcases hx' with heq | ⟨l, hl⟩
      · subst heq
        exact wellFormed_not_mem h depth x _ hwf hd (by simp)
      · exact not_visiblyDescends_excluded h depth root node x above hwf hnode hd hc l hl
    · intro below
      by_contra hb
      have hb' : descends h child (below ++ [x]) = true := by
        cases hbb : descends h child (below ++ [x]) with
        | true => rfl
        | false => exact absurd hbb hb
      have hfull : descends h root ((above ++ child :: below) ++ [x]) = true := by
        rw [List.append_assoc, List.cons_append]
        exact (descends_append h above child (below ++ [x]) root).2 ⟨hd, hb'⟩
      rcases hx' with heq | ⟨l, hl⟩
      · subst heq
        exact wellFormed_not_mem h depth x _ hwf hfull (by simp)
      · have hl' := descends_unique h depth root hwf l (above ++ child :: below) x
          (visiblyDescends_descends h _ root hl) hfull
        subst hl'
        rw [List.append_assoc, List.cons_append] at hl
        have := ((visiblyDescends_append h above child (below ++ [x]) root).1 hl).1
        exact not_visiblyDescends_excluded h depth root node child above hwf hnode hd hc above this
  refine ⟨hc, hvis, ?_, ?_, ?_⟩
  rotate_left 2
  · intro hm
    exact not_visiblyDescends_excluded h depth root node child above hwf hnode hd hc []
      (by simp [visiblyDescends, hm])
  · intro fuel n hn
    exact hvis fuel n (mem_subCommandPathCalls h root fuel root n hn).2
  · intro pf fuel w
    exact genFishCompletion_congr h (removeChild h node child)
      (fun p => (removeChild_fields h node child p).1)
      (fun p => (removeChild_fields h node child p).2.1)
      (fun p => (removeChild_fields h node child p).2.2.1)
      (fun p => (removeChild_fields h node child p).2.2.2.2.2.1)
      (fun p => (removeChild_fields h node child p).2.2.2.2.2.2.1)
      (fun p => (removeChild_fields h node child p).2.2.2.2.2.2.2)
      (visibleCommands_removeChild h node child hc) pf fuel root w

/-- The help command `help` and the unavailable `legacy` of `toolTree`. -/
theorem excluded_child_not_walked_witness :
    wellFormed toolTree 3 0 = true ∧ descends toolTree 0 ([] ++ [4]) = true ∧
    (toolTree 0).helpCommand = some 4 ∧
    4 ∉ visibleCommands toolTree 0 ∧
    GenFishCompletion (removeChild toolTree 0 4) 3 3 0 acceptAll =
      GenFishCompletion toolTree 3 3 0 acceptAll :=
  ⟨rfl, rfl, rfl,
    (excluded_child_not_walked toolTree 3 0 0 4 [] rfl (Or.inl ⟨rfl, rfl⟩) rfl (Or.inr rfl)).1,
    (excluded_child_not_walked toolTree 3 0 0 4 [] rfl (Or.inl ⟨rfl, rfl⟩) rfl
      (Or.inr rfl)).2.2.2.1 3 3 acceptAll⟩

/-! ### Texts without a newline -/

theorem noNewline_append (a b : String) : noNewline (a ++ b) ↔ noNewline a ∧ noNewline b := by
  unfold noNewline
  simp only [String.data_append, List.mem_append, not_or]

theorem noNewline_join (l : List String) (hl : ∀ x ∈ l, noNewline x) :
    noNewline (String.join l) := by
  induction l with
  | nil => rw [join_nil]; unfold noNewline; simp
  | cons a l ih =>
    rw [join_cons, noNewline_append]
    exact ⟨hl a (by simp), ih (fun x hx => hl x (List.mem_cons_of_mem a hx))⟩

theorem noNewline_intercalate (s : String) (l : List String) (hs : noNewline s)
    (hl : ∀ x ∈ l, noNewline x) : noNewline (String.intercalate s l) := by
  cases l with
  | nil => unfold noNewline; simp [String.intercalate]
  | cons a l =>
    rw [intercalate_cons, noNewline_append]
    refine ⟨hl a (by simp), noNewline_join _ ?_⟩
    intro x hx
    obtain ⟨y, hy, rfl⟩ := List.mem_map.1 hx
    exact (noNewline_append s y).2 ⟨hs, hl y (List.mem_cons_of_mem a hy)⟩

theorem subCommandPathLoop_noNewline (h : Heap) (rootCmd : Ptr)
    (hn : ∀ p, noNewline (h p).Name) :
    ∀ (fuel : Nat) (cmd : Ptr) (path : List String) (out : String),
      (∀ x ∈ path, noNewline x) →
      subCommandPathLoop h rootCmd fuel cmd path = .ok out → noNewline out := by
  intro fuel
  induction fuel with
  | zero => intro cmd path out _ hh; simp [subCommandPathLoop] at hh
  | succ n ih =>
    intro cmd path out hpath hh
    rw [subCommandPathLoop] at hh
    have hpath' : ∀ x ∈ [(h cmd).Name] ++ path, noNewline x := by
      intro x hx
      simp only [List.singleton_append, List.mem_cons] at hx
      rcases hx with rfl | hx
      · exact hn cmd
      · exact hpath x hx
    by_cases hp : (h cmd).Parent = some rootCmd
    · simp only [hp, if_true] at hh
      cases hh
      exact noNewline_intercalate _ _ (by unfold noNewline; decide) hpath'
    · simp only [hp, if_false] at hh
      cases hpar : (h cmd).Parent with
      | none => rw [hpar] at hh; simp at hh
      | some parent =>
        rw [hpar] at hh
        exact ih parent _ out hpath' hh

theorem firstConjunct_noNewline (h : Heap) (fuel : Nat) (rootCmd cmd : Ptr) (first : String)
    (hn : ∀ p, noNewline (h p).Name) (hf : firstConjunct h fuel rootCmd cmd = .ok first) :
    noNewline first := by
  unfold firstConjunct at hf
  by_cases hrc : rootCmd = cmd
  · simp only [hrc, if_true] at hf
    cases hf
    rw [noNewline_append, noNewline_append]
    exact ⟨⟨by unfold noNewline; decide, hn cmd⟩, by unfold noNewline; decide⟩
  · simp only [hrc, if_false] at hf
    cases hp : subCommandPath h fuel rootCmd cmd with
    | error e => rw [hp] at hf; cases hf
    | ok path =>
      rw [hp] at hf
      cases hf
      rw [noNewline_append]
      exact ⟨by unfold noNewline; decide,
        subCommandPathLoop_noNewline h rootCmd hn fuel cmd [] path (by simp) hp⟩

/-! ### Registration lines -/

theorem noNewline_literal_check : noNewline "; and " ∧ noNewline "not __fish_" ∧
    noNewline "_has_flag " ∧ noNewline "' -a " ∧ noNewline " -d '" ∧ noNewline "'" ∧
    noNewline " " ∧ noNewline "-r" ∧ noNewline "" ∧ noNewline "-s " ∧ noNewline " -l " ∧
    noNewline "complete -c " ∧ noNewline " -f -n '" := by
  unfold noNewline
  decide

theorem subCommandLine_isRegistrationLine (h : Heap) (rootCmd c : Ptr) (x : String)
    (hr : noNewline (h rootCmd).Name) (hx : noNewline x) (hn : noNewline (h c).Name)
    (hs : noNewline (h c).Short) :
    isRegistrationLine (h rootCmd).Name (subCommandLine h rootCmd ("-n '" ++ x ++ "'") c) := by
  obtain ⟨_, _, _, l₁, l₂, l₃, _, _, _, _, _, l₄, l₅⟩ := noNewline_literal_check
  refine ⟨x ++ "' -a " ++ (h c).Name ++ " -d '" ++ (h c).Short ++ "'", ?_, ?_⟩
  · unfold subCommandLine
    apply String.ext
    simp only [String.data_append, List.append_assoc]
    rfl
  · simp only [noNewline_append]
    exact ⟨⟨⟨l₄, hr⟩, l₅⟩, ⟨⟨⟨⟨hx, l₁⟩, hn⟩, l₂⟩, hs⟩, l₃⟩

theorem flagLine_isRegistrationLine (h : Heap) (rootCmd : Ptr) (flag : Flag) (x : String)
    (hr : noNewline (h rootCmd).Name) (hx : noNewline x) (hn : noNewline flag.Name)
    (hs : noNewline flag.Shorthand) (hu : noNewline flag.Usage) :
    isRegistrationLine (h rootCmd).Name (flagLine h rootCmd ("-n '" ++ x ++ "'") flag) := by
  obtain ⟨_, _, _, _, l₂, l₃, l₆, l₇, l₈, l₉, l₁₀, l₄, l₅⟩ := noNewline_literal_check
  refine ⟨x ++ "'" ++ " " ++ (if flag.ValueType = "bool" then "" else "-r") ++ " " ++
    (if flag.Shorthand = "" then "" else "-s " ++ flag.Shorthand) ++ " -l " ++ flag.Name ++
    " -d '" ++ flag.Usage ++ "'", ?_, ?_⟩
  · unfold flagLine
    apply String.ext
    simp only [String.data_append, List.append_assoc]
    rfl
  · have hm : noNewline (if flag.ValueType = "bool" then "" else "-r") := by
      split
      · exact l₈
      · exact l₇
    have hp : noNewline (if flag.Shorthand = "" then "" else "-s " ++ flag.Shorthand) := by
      split
      · exact l₈
      · exact (noNewline_append _ _).2 ⟨l₉, hs⟩
    simp only [noNewline_append]
    exact ⟨⟨⟨l₄, hr⟩, l₅⟩, ⟨⟨⟨⟨⟨⟨⟨⟨⟨⟨hx, l₃⟩, l₆⟩, hm⟩, l₆⟩, hp⟩, l₁₀⟩, hn⟩, l₂⟩, hu⟩, l₃⟩⟩

theorem lineCount_append (a b : String) : lineCount (a ++ b) = lineCount a + lineCount b := by
  unfold lineCount
  simp [String.data_append]

theorem lineCount_registrationLine (rootName line : String)
    (hl : isRegistrationLine rootName line) : lineCount line = 1 := by
  obtain ⟨body, rfl, hb⟩ := hl
  rw [lineCount_append]
  have h₀ : lineCount ("complete -c " ++ rootName ++ " -f -n '" ++ body) = 0 := by
    unfold lineCount
    exact List.count_eq_zero.2 hb
  rw [h₀]
  decide

theorem lineCount_join (rootName : String) (ls : List String)
    (hl : ∀ l ∈ ls, isRegistrationLine rootName l) : lineCount (String.join ls) = ls.length := by
  induction ls with
  | nil => rw [join_nil]; rfl
  | cons a l ih =>
    rw [join_cons, lineCount_append, lineCount_registrationLine rootName a (hl a (by simp)),
      ih (fun x hx => hl x (List.mem_cons_of_mem a hx))]
    simp
    omega

theorem negatedCheck_noNewline (h : Heap) (rootCmd : Ptr) (flag : Flag)
    (hr : noNewline (h rootCmd).Name) (hn : noNewline flag.Name) :
    noNewline (negatedCheck h rootCmd flag) := by
  obtain ⟨_, l₁, l₂, _⟩ := noNewline_literal_check
  unfold negatedCheck
  simp only [noNewline_append]
  exact ⟨⟨⟨l₁, hr⟩, l₂⟩, hn⟩

theorem mem_completableFlags (flags : List Flag) (flag : Flag)
    (hf : flag ∈ completableFlags flags) : flag ∈ flags :=
  (List.mem_filter.1 hf).1

theorem ownText_lines (h : Heap) (pathFuel : Nat) (rootCmd cmd : Ptr) (t : String)
    (hclean : cleanTexts h) (ht : ownText h pathFuel rootCmd cmd = .ok t) :
    ∃ ls, t = String.join ls ∧ (∀ l ∈ ls, isRegistrationLine (h rootCmd).Name l) ∧
      ls.length = (visibleCommands h cmd).length + flagLineCount h cmd := by
  have hn : ∀ p, noNewline (h p).Name := fun p => (hclean p).1
  unfold ownText at ht
  cases hf : firstConjunct h pathFuel rootCmd cmd with
  | error e =>
    have hccc : commandCompletionCondition h pathFuel rootCmd cmd = .error e := by
      rw [commandCompletionCondition_first, hf]; rfl
    have hcc : completionCondition h pathFuel rootCmd cmd = .error e := by
      rw [completionCondition_first, hf]; rfl
    rw [hccc, mapM_const_error, writeCommandFlagsCompletion_eq, hcc] at ht
    cases hv : visibleCommands h cmd with
    | cons a l => rw [hv] at ht; cases ht
    | nil =>
      rw [hv] at ht
      by_cases hfl : completableFlags (h cmd).NonInheritedFlags ++
          completableFlags (h cmd).InheritedFlags = []
      · refine ⟨[], ?_, by simp, ?_⟩
        · simp only [hfl, if_true] at ht
          cases ht
          rfl
        · have := congrArg List.length hfl
          simp only [List.length_append, List.length_nil] at this
          simp [flagLineCount]
          omega
      · simp only [hfl, if_false] at ht
        cases ht
  | ok first =>
    have hfirst := firstConjunct_noNewline h pathFuel rootCmd cmd first hn hf
    have hccc : commandCompletionCondition h pathFuel rootCmd cmd =
        .ok ("-n '" ++ String.intercalate "; and "
          (first :: (h cmd).LocalNonPersistentFlags.map (negatedCheck h rootCmd)) ++ "'") := by
      rw [commandCompletionCondition_first, hf]; rfl
    have hcc : completionCondition h pathFuel rootCmd cmd = .ok ("-n '" ++ first ++ "'") := by
      rw [completionCondition_first, hf]; rfl
    rw [hccc, mapM_const_ok, writeCommandFlagsCompletion_eq, hcc] at ht
    have ht' : t = String.join ((visibleCommands h cmd).map
          (subCommandLine h rootCmd ("-n '" ++ String.intercalate "; and "
            (first :: (h cmd).LocalNonPersistentFlags.map (negatedCheck h rootCmd)) ++ "'")) ++
        (completableFlags (h cmd).NonInheritedFlags ++
          completableFlags (h cmd).InheritedFlags).map
            (flagLine h rootCmd ("-n '" ++ first ++ "'"))) := by
      have := Except.ok.inj ht
      rw [join_append, ← this]
      simp
    refine ⟨_, ht', ?_, by simp [flagLineCount]⟩
    intro l hl
    rcases List.mem_append.1 hl with hl | hl
    · obtain ⟨c, _, rfl⟩ := List.mem_map.1 hl
      refine subCommandLine_isRegistrationLine h rootCmd c _ (hn rootCmd) ?_ (hn c) (hclean c).2.1
      refine noNewline_intercalate _ _ noNewline_literal_check.1 ?_
      intro x hx
      rcases List.mem_cons.1 hx with rfl | hx
      · exact hfirst
      · obtain ⟨flag, hflag, rfl⟩ := List.mem_map.1 hx
        exact negatedCheck_noNewline h rootCmd flag (hn rootCmd)
          ((hclean cmd).2.2 flag (by simp [hflag])).1
    · obtain ⟨flag, hflag, rfl⟩ := List.mem_map.1 hl
      have hmem : flag ∈ (h cmd).NonInheritedFlags ++ (h cmd).InheritedFlags ++
          (h cmd).LocalNonPersistentFlags := by
        rcases List.mem_append.1 hflag with hm | hm
        · simp [mem_completableFlags _ _ hm]
        · simp [mem_completableFlags _ _ hm]
      obtain ⟨h₁, h₂, h₃⟩ := (hclean cmd).2.2 flag hmem
      exact flagLine_isRegistrationLine h rootCmd flag first (hn rootCmd) hfirst h₁ h₂ h₃

theorem walk_lines (h : Heap) (pathFuel : Nat) (rootCmd : Ptr) (hclean : cleanTexts h) :
    ∀ (fuel : Nat) (cmd : Ptr) (text : String),
      walk h (ownText h pathFuel rootCmd) fuel cmd = .ok text →
      ∃ ls, text = String.join ls ∧ (∀ l ∈ ls, isRegistrationLine (h rootCmd).Name l) ∧
        ls.length + 1 =
          (visited h fuel cmd).length + ((visited h fuel cmd).map (flagLineCount h)).sum := by
  intro fuel
  induction fuel with
  | zero => intro cmd text hh; simp [walk] at hh
  | succ n ih =>
    intro cmd text hh
    rw [walk_succ] at hh
    cases ho : ownText h pathFuel rootCmd cmd with
    | error e => rw [ho] at hh; cases hh
    | ok t =>
      cases hs : (visibleCommands h cmd).mapM (walk h (ownText h pathFuel rootCmd) n) with
      | error e => rw [ho, hs] at hh; cases hh
      | ok subtrees =>
        rw [ho, hs] at hh
        have htext : text = t ++ String.join subtrees := (Except.ok.inj hh).symm
        obtain ⟨ls₀, ht, hl₀, hlen₀⟩ := ownText_lines h pathFuel rootCmd cmd t hclean ho
        have hsub : ∀ (l : List Ptr) (ts : List String),
            l.mapM (walk h (ownText h pathFuel rootCmd) n) = .ok ts →
            ∃ ls, String.join ts = String.join ls ∧
              (∀ x ∈ ls, isRegistrationLine (h rootCmd).Name x) ∧
              ls.length + l.length = (l.flatMap (visited h n)).length +
                ((l.flatMap (visited h n)).map (flagLineCount h)).sum := by
          intro l
          induction l with
          | nil =>
            intro ts hts
            rw [List.mapM_nil] at hts
            cases hts
            exact ⟨[], rfl, by simp, by simp⟩
          | cons a l ihl =>
            intro ts hts
            obtain ⟨t₁, ts', ha, hl', rfl⟩ := mapM_cons_ok _ a l ts hts
            obtain ⟨ls₁, e₁, p₁, q₁⟩ := ih a t₁ ha
            obtain ⟨ls₂, e₂, p₂, q₂⟩ := ihl ts' hl'
            refine ⟨ls₁ ++ ls₂, ?_, ?_, ?_⟩
            · rw [join_cons, join_append, e₁, e₂]
            · intro x hx
              rcases List.mem_append.1 hx with hx | hx
              · exact p₁ x hx
              · exact p₂ x hx
            · simp only [List.flatMap_cons, List.length_append, List.map_append,
                List.sum_append, List.length_cons]
              omega
        obtain ⟨ls₁, e₁, p₁, q₁⟩ := hsub _ subtrees hs
        refine ⟨ls₀ ++ ls₁, ?_, ?_, ?_⟩
        · rw [htext, join_append, ht, e₁]
        · intro x hx
          rcases List.mem_append.1 hx with hx | hx
          · exact hl₀ x hx
          · exact p₁ x hx
        · simp only [visited, List.length_cons, List.length_append, List.map_cons, List.sum_cons]
          omega

/-! ### The walker visits every command once -/

theorem chain_of_mem_visited (h : Heap) (fuel : Nat) (cmd c x : Ptr)
    (hc : c ∈ visibleCommands h cmd) (hx : x ∈ visited h fuel c) :
    ∃ chain, visiblyDescends h cmd (chain ++ [x]) = true ∧
      ((chain = [] ∧ x = c) ∨ ∃ rest, chain = c :: rest) := by
  rcases mem_visited h fuel c x hx with heq | ⟨above, ha⟩
  · subst heq
    exact ⟨[], by simp [visiblyDescends, hc], Or.inl ⟨rfl, rfl⟩⟩
  · exact ⟨c :: above, by simp [visiblyDescends, hc, ha], Or.inr ⟨above, rfl⟩⟩

theorem visited_nodup (h : Heap) (hnd : ∀ p, (h p).Commands.Nodup) :
    ∀ (fuel k : Nat) (cmd : Ptr), wellFormed h k cmd = true → (visited h fuel cmd).Nodup := by
  intro fuel
  induction fuel with
  | zero => intro k cmd _; simp [visited]
  | succ n ih =>
    intro k cmd hwf
    obtain ⟨k', rfl⟩ : ∃ k', k = k' + 1 :=
      ⟨k - 1, by have := wellFormed_pos h k cmd hwf; omega⟩
    simp only [visited, List.nodup_cons, List.mem_flatMap, not_exists, not_and]
    constructor
    · intro c hc hx
      obtain ⟨chain, hv, _⟩ := chain_of_mem_visited h n cmd c cmd hc hx
      exact wellFormed_not_mem h (k' + 1) cmd _ hwf (visiblyDescends_descends h _ cmd hv)
        (by simp)
    · rw [List.nodup_flatMap]
      constructor
      · intro c hc
        exact ih k' c (wellFormed_sub h k' cmd c hwf ((mem_visibleCommands h cmd c).1 hc).1).2
      · have hvn : (visibleCommands h cmd).Nodup := (hnd cmd).filter _
        refine List.Pairwise.imp_of_mem ?_ hvn
        intro a b ha hb hab
        show List.Disjoint (visited h n a) (visited h n b)
        intro x hxa hxb
        obtain ⟨ca, hva, hca⟩ := chain_of_mem_visited h n cmd a x ha hxa
        obtain ⟨cb, hvb, hcb⟩ := chain_of_mem_visited h n cmd b x hb hxb
        have heq := descends_unique h (k' + 1) cmd hwf ca cb x
          (visiblyDescends_descends h _ cmd hva) (visiblyDescends_descends h _ cmd hvb)
        subst heq
        rcases hca with ⟨h₁, h₂⟩ | ⟨r₁, h₁⟩
        · rcases hcb with ⟨_, h₄⟩ | ⟨r₂, h₃⟩
          · exact hab (h₂.symm.trans h₄)
          · rw [h₁] at h₃; cases h₃
        · rcases hcb with ⟨h₃, _⟩ | ⟨r₂, h₃⟩
          · rw [h₃] at h₁; cases h₁
          · rw [h₁] at h₃
            exact hab (List.cons.inj h₃).1

theorem mem_visited_of_chain (h : Heap) :
    ∀ (fuel : Nat) (above : List Ptr) (cmd x : Ptr),
      visiblyDescends h cmd (above ++ [x]) = true → above.length + 1 < fuel →
      x ∈ visited h fuel cmd := by
  intro fuel
  induction fuel with
  | zero => intro above cmd x _ hlt; omega
  | succ n ih =>
    intro above cmd x hv hlt
    simp only [visited, List.mem_cons, List.mem_flatMap]
    right
    cases above with
    | nil =>
      simp only [List.nil_append, visiblyDescends, Bool.and_true, decide_eq_true_eq] at hv
      obtain ⟨m, rfl⟩ : ∃ m, n = m + 1 := ⟨n - 1, by simp at hlt; omega⟩
      exact ⟨x, hv, by simp [visited]⟩
    | cons a l =>
      simp only [List.cons_append, visiblyDescends, Bool.and_eq_true, decide_eq_true_eq] at hv
      exact ⟨a, hv.1, ih l a x hv.2 (by simp at hlt; omega)⟩

/-! ### The lines of the script -/

theorem cleanTexts_toolTree : cleanTexts toolTree := by
  unfold cleanTexts noNewline
  intro p
  match p with
  | 0 => decide
  | 1 => decide
  | 2 => decide
  | 3 => decide
  | 4 => decide
  | 5 => decide
  | n + 6 =>
    have e : toolTree (n + 6) = noCommand := rfl
    rw [e]
    decide

theorem walk_of_writeFishCommandCompletion (h : Heap) (pathFuel fuel : Nat) (rootCmd cmd : Ptr)
    (text : String) (ht : writeFishCommandCompletion h pathFuel fuel rootCmd cmd "" = .ok text) :
    walk h (ownText h pathFuel rootCmd) fuel cmd = .ok text := by
  rw [writeFishCommandCompletion_walk] at ht
  cases hw : walk h (ownText h pathFuel rootCmd) fuel cmd with
  | error e => rw [hw] at ht; cases ht
  | ok t =>
    rw [hw] at ht
    have := Except.ok.inj ht
    simp at this
    rw [this]

theorem genFishCompletion_handed (h : Heap) (pathFuel fuel : Nat) (root : Ptr) (w : Writer)
    (r : List String × Option String) (hr : GenFishCompletion h pathFuel fuel root w = .ok r) :
    ∃ text, writeFishCommandCompletion h pathFuel fuel root root "" = .ok text ∧
      r.1 = [writeFishPreamble h root "" ++ text] := by
  rw [genFishCompletion_eq] at hr
  cases hw : writeFishCommandCompletion h pathFuel fuel root root "" with
  | error e =>
    rw [writeFishCommandCompletion_buf, hw] at hr
    simp [Except.map, bind, Except.bind] at hr
  | ok text =>
    rw [writeFishCommandCompletion_preamble h pathFuel fuel root text hw, ok_bind] at hr
    exact ⟨text, rfl, writeTo_handed _ w r
      (append_ne_empty _ _ (writeFishPreamble_ne_empty h root)) hr⟩

/-- C17. When no name (of a command or of a flag, shorthand included), no short
description and no usage text of the tree holds a newline, the text the walker
appends after the preamble is a sequence of lines, each with its only newline at
its end and each beginning with `complete -c <root name> -f -n '`, the root
being the command the generator was called on; in a well-formed tree the walker
returns such a text with fuel up to the depth bound. -/
theorem registration_lines_name_root (h : Heap) (pathFuel fuel : Nat) (root : Ptr)
    (hclean : cleanTexts h) :
    (∀ text, writeFishCommandCompletion h pathFuel fuel root root "" = .ok text →
      ∃ ls, text = String.join ls ∧ ∀ l ∈ ls, isRegistrationLine (h root).Name l) ∧
    (∀ (w : Writer) (r : List String × Option String),
      GenFishCompletion h pathFuel fuel root w = .ok r →
      ∃ ls, r.1 = [writeFishPreamble h root "" ++ String.join ls] ∧
        ∀ l ∈ ls, isRegistrationLine (h root).Name l) ∧
    (∀ depth, wellFormed h depth root = true → depth ≤ pathFuel → depth ≤ fuel →
      ∃ text, writeFishCommandCompletion h pathFuel fuel root root "" = .ok text) := by
  have key : ∀ text, writeFishCommandCompletion h pathFuel fuel root root "" = .ok text →
      ∃ ls, text = String.join ls ∧ ∀ l ∈ ls, isRegistrationLine (h root).Name l := by
    intro text ht
    obtain ⟨ls, e, hl, _⟩ := walk_lines h pathFuel root hclean fuel root text
      (walk_of_writeFishCommandCompletion h pathFuel fuel root root text ht)
    exact ⟨ls, e, hl⟩
  refine ⟨key, ?_, ?_⟩
  · intro w r hr
    obtain ⟨text, ht, hr'⟩ := genFishCompletion_handed h pathFuel fuel root w r hr
    obtain ⟨ls, e, hl⟩ := key text ht
    exact ⟨ls, by rw [hr', e], hl⟩
  · intro depth hwf hpf hfuel
    exact writeFishCommandCompletion_ok h pathFuel depth root hwf hpf fuel depth [] root ""
      (Or.inl rfl) hwf hfuel

/-- C18. Under the same condition on newlines the number of lines after the
preamble is `V + F`: `V` counts the invocations of the walker other than the one
on the root, `F` sums the completable non-inherited and inherited flags over all
invocations. In a well-formed tree with fuel up to the depth bound the walker
returns, it is invoked on the root and on the commands reached from the root
through visible subcommands, and on each of them once when no command lists a
subcommand twice. -/
theorem line_count_nodes_plus_flags (h : Heap) (pathFuel fuel : Nat) (root : Ptr)
    (hclean : cleanTexts h) :
    (∀ text, writeFishCommandCompletion h pathFuel fuel root root "" = .ok text →
      lineCount text =
        ((visited h fuel root).length - 1) +
          ((visited h fuel root).map (flagLineCount h)).sum) ∧
    (∀ depth, wellFormed h depth root = true → depth ≤ pathFuel → depth ≤ fuel →
      (∃ text, writeFishCommandCompletion h pathFuel fuel root root "" = .ok text) ∧
      (∀ x, x ∈ visited h fuel root ↔
        x = root ∨ ∃ above, visiblyDescends h root (above ++ [x]) = true) ∧
      ((∀ p, (h p).Commands.Nodup) → (visited h fuel root).Nodup)) := by
  constructor
  · intro text ht
    obtain ⟨ls, e, hl, hlen⟩ := walk_lines h pathFuel root hclean fuel root text
      (walk_of_writeFishCommandCompletion h pathFuel fuel root root text ht)
    have hpos : 0 < (visited h fuel root).length := by
      cases fuel with
      | zero => simp [writeFishCommandCompletion] at ht
      | succ n => simp [visited]
    rw [e, lineCount_join (h root).Name ls hl]
    omega
  · intro depth hwf hpf hfuel
    refine ⟨writeFishCommandCompletion_ok h pathFuel depth root hwf hpf fuel depth [] root ""
      (Or.inl rfl) hwf hfuel, ?_, fun hnd => visited_nodup h hnd fuel depth root hwf⟩
    intro x
    constructor
    · exact mem_visited h fuel root x
    · rintro (rfl | ⟨above, ha⟩)
      · obtain ⟨m, rfl⟩ : ∃ m, fuel = m + 1 :=
          ⟨fuel - 1, by have := wellFormed_pos h depth x hwf; omega⟩
        simp [visited]
      · have := (wellFormed_descends h above depth root x hwf
          (visiblyDescends_descends h _ root ha)).1
        exact mem_visited_of_chain h fuel above root x ha (by omega)

set_option maxRecDepth 100000 in
/-- The lines of the script of `toolTree`. -/
theorem registration_lines_name_root_witness :
    cleanTexts toolTree ∧
    ∃ ls, "complete -c tool -f -n '__fish_tool_no_subcommand; and not __fish_tool_has_flag verbose' -a remote -d 'Manage remotes'\ncomplete -c tool -f -n '__fish_tool_no_subcommand; and not __fish_tool_has_flag verbose' -a build -d 'Build the project'\ncomplete -c tool -f -n '__fish_tool_no_subcommand'  -s v -l verbose -d 'be verbose'\ncomplete -c tool -f -n '__fish_seen_subcommand_from remote' -a add -d 'Add a remote'\ncomplete -c tool -f -n '__fish_seen_subcommand_from remote' -r -s o -l output -d 'output path'\ncomplete -c tool -f -n '__fish_seen_subcommand_from build' -r -s o -l output -d 'output path'\n" =
        String.join ls ∧
      ∀ l ∈ ls, isRegistrationLine (toolTree 0).Name l :=
  ⟨cleanTexts_toolTree,
    (registration_lines_name_root toolTree 3 3 0 cleanTexts_toolTree).1 _ rfl⟩

set_option maxRecDepth 100000 in
/-- The six lines of the script of `toolTree`: three commands under the root and
three flag lines. -/
theorem line_count_nodes_plus_flags_witness :
    cleanTexts toolTree ∧
    visited toolTree 3 0 = [0, 1, 5, 3] ∧
    (visited toolTree 3 0).map (flagLineCount toolTree) = [1, 1, 0, 1] ∧
    lineCount "complete -c tool -f -n '__fish_tool_no_subcommand; and not __fish_tool_has_flag verbose' -a remote -d 'Manage remotes'\ncomplete -c tool -f -n '__fish_tool_no_subcommand; and not __fish_tool_has_flag verbose' -a build -d 'Build the project'\ncomplete -c tool -f -n '__fish_tool_no_subcommand'  -s v -l verbose -d 'be verbose'\ncomplete -c tool -f -n '__fish_seen_subcommand_from remote' -a add -d 'Add a remote'\ncomplete -c tool -f -n '__fish_seen_subcommand_from remote' -r -s o -l output -d 'output path'\ncomplete -c tool -f -n '__fish_seen_subcommand_from build' -r -s o -l output -d 'output path'\n" =
      ((visited toolTree 3 0).length - 1) +
        ((visited toolTree 3 0).map (flagLineCount toolTree)).sum :=
  ⟨cleanTexts_toolTree, rfl, rfl,
    (line_count_nodes_plus_flags toolTree 3 3 0 cleanTexts_toolTree).1 _ rfl⟩

/-! ### Paths tell the commands apart -/

theorem split_at_space (a : List Char) :
    ∀ (b x y : List Char), spaceChar ∉ a → spaceChar ∉ b →
      (x = [] ∨ x.head? = some spaceChar) → (y = [] ∨ y.head? = some spaceChar) →
      a ++ x = b ++ y → a = b ∧ x = y := by
  induction a with
  | nil =>
    intro b x y _ hb hx _ hh
    cases b with
    | nil => exact ⟨rfl, by simpa using hh⟩
    | cons c b' =>
      simp only [List.nil_append, List.cons_append] at hh
      rcases hx with hx | hx
      · rw [hx] at hh; cases hh
      · rw [hh] at hx
        simp only [List.head?_cons, Option.some.injEq] at hx
        exact absurd (by simp [hx]) hb
  | cons c a' ih =>
    intro b x y ha hb hx hy hh
    cases b with
    | nil =>
      simp only [List.nil_append, List.cons_append] at hh
      rcases hy with hy | hy
      · rw [hy] at hh; cases hh
      · rw [← hh] at hy
        simp only [List.head?_cons, Option.some.injEq] at hy
        exact absurd (by simp [hy]) ha
    | cons d b' =>
      simp only [List.cons_append, List.cons.injEq] at hh
      obtain ⟨rfl, hh⟩ := hh
      obtain ⟨h₁, h₂⟩ := ih b' x y (fun hm => ha (List.mem_cons_of_mem _ hm))
        (fun hm => hb (List.mem_cons_of_mem _ hm)) hx hy hh
      exact ⟨by rw [h₁], h₂⟩

theorem tail_data_cons (b : String) (l : List String) :
    (String.join ((b :: l).map (fun x => " " ++ x))).data =
      spaceChar :: (b.data ++ (String.join (l.map (fun x => " " ++ x))).data) := by
  rw [List.map_cons, join_cons]
  simp only [String.data_append]
  rfl

theorem tail_data_head (l : List String) :
    (String.join (l.map (fun x => " " ++ x))).data = [] ∨
      (String.join (l.map (fun x => " " ++ x))).data.head? = some spaceChar := by
  cases l with
  | nil => left; rfl
  | cons b l => right; rw [tail_data_cons]; rfl

theorem tail_data_injective (l₁ : List String) :
    ∀ l₂ : List String, (∀ x ∈ l₁, noSpace x) → (∀ x ∈ l₂, noSpace x) →
      (String.join (l₁.map (fun x => " " ++ x))).data =
        (String.join (l₂.map (fun x => " " ++ x))).data → l₁ = l₂ := by
  induction l₁ with
  | nil =>
    intro l₂ _ _ hh
    cases l₂ with
    | nil => rfl
    | cons b l =>
      rw [tail_data_cons] at hh
      exact absurd hh (by simp [join_nil])
  | cons a l ih =>
    intro l₂ h₁ h₂ hh
    cases l₂ with
    | nil =>
      rw [tail_data_cons] at hh
      exact absurd hh (by simp [join_nil])
    | cons b l' =>
      rw [tail_data_cons, tail_data_cons] at hh
      have hh' := (List.cons.inj hh).2
      obtain ⟨e₁, e₂⟩ := split_at_space a.data b.data _ _ (h₁ a (by simp)) (h₂ b (by simp))
        (tail_data_head l) (tail_data_head l') hh'
      rw [String.ext e₁, ih l' (fun x hx => h₁ x (List.mem_cons_of_mem a hx))
        (fun x hx => h₂ x (List.mem_cons_of_mem b hx)) e₂]

theorem intercalate_space_injective (a b : String) (l₁ l₂ : List String)
    (h₁ : ∀ x ∈ a :: l₁, noSpace x) (h₂ : ∀ x ∈ b :: l₂, noSpace x)
    (hh : String.intercalate " " (a :: l₁) = String.intercalate " " (b :: l₂)) :
    a :: l₁ = b :: l₂ := by
  rw [intercalate_cons, intercalate_cons] at hh
  have hd := congrArg String.data hh
  simp only [String.data_append] at hd
  obtain ⟨e₁, e₂⟩ := split_at_space a.data b.data _ _ (h₁ a (by simp)) (h₂ b (by simp))
    (tail_data_head l₁) (tail_data_head l₂) hd
  rw [String.ext e₁, tail_data_injective l₁ l₂ (fun x hx => h₁ x (List.mem_cons_of_mem a hx))
    (fun x hx => h₂ x (List.mem_cons_of_mem b hx)) e₂]

theorem chain_of_names (h : Heap) (hsib : distinctSiblingNames h) (c₁ : List Ptr) :
    ∀ (cmd : Ptr) (c₂ : List Ptr), descends h cmd c₁ = true → descends h cmd c₂ = true →
      c₁.map (fun a => (h a).Name) = c₂.map (fun a => (h a).Name) → c₁ = c₂ := by
  induction c₁ with
  | nil =>
    intro cmd c₂ _ _ hh
    cases c₂ with
    | nil => rfl
    | cons b l => simp at hh
  | cons a l ih =>
    intro cmd c₂ h₁ h₂ hh
    cases c₂ with
    | nil => simp at hh
    | cons b l' =>
      simp only [descends, Bool.and_eq_true, decide_eq_true_eq] at h₁ h₂
      simp only [List.map_cons, List.cons.injEq] at hh
      have hab : a = b := hsib cmd a b h₁.1 h₂.1 hh.1
      subst hab
      rw [ih a l' h₁.2 h₂.2 hh.2]

theorem subCommandPath_of_chain (h : Heap) (depth : Nat) (root : Ptr) (above : List Ptr)
    (n : Ptr) (pathFuel : Nat) (hwf : wellFormed h depth root = true)
    (hd : descends h root (above ++ [n]) = true) (hpf : depth ≤ pathFuel) :
    subCommandPath h pathFuel root n =
      .ok (String.intercalate " " ((above ++ [n]).map (fun a => (h a).Name))) := by
  have hchain := wellFormed_chain h (above ++ [n]) depth root hwf hd
  have hnot : root ∉ above := fun hm =>
    wellFormed_not_mem h depth root (above ++ [n]) hwf hd (by simp [hm])
  have hlen := (wellFormed_descends h above depth root n hwf hd).1
  have := (subCommandPathLoop_chain h root above n [] pathFuel hchain hnot).1 (by omega)
  simpa [subCommandPath] using this

theorem paths_differ (h : Heap) (root : Ptr) (above₁ above₂ : List Ptr)
    (n₁ n₂ : Ptr) (hnames : ∀ p, noSpace (h p).Name) (hsib : distinctSiblingNames h)
    (hd₁ : descends h root (above₁ ++ [n₁]) = true)
    (hd₂ : descends h root (above₂ ++ [n₂]) = true) (hne : n₁ ≠ n₂) :
    String.intercalate " " ((above₁ ++ [n₁]).map (fun a => (h a).Name)) ≠
      String.intercalate " " ((above₂ ++ [n₂]).map (fun a => (h a).Name)) := by
  intro hh
  have hnames' : ∀ (c : List Ptr), ∀ x ∈ c.map (fun a => (h a).Name), noSpace x := by
    intro c x hx
    obtain ⟨a, _, rfl⟩ := List.mem_map.1 hx
    exact hnames a
  have hlists : (above₁ ++ [n₁]).map (fun a => (h a).Name) =
      (above₂ ++ [n₂]).map (fun a => (h a).Name) := by
    cases e₁ : (above₁ ++ [n₁]).map (fun a => (h a).Name) with
    | nil => simp at e₁
    | cons a l =>
      cases e₂ : (above₂ ++ [n₂]).map (fun a => (h a).Name) with
      | nil => simp at e₂
      | cons b l' =>
        rw [e₁, e₂] at hh
        exact intercalate_space_injective a b l l' (e₁ ▸ hnames' _) (e₂ ▸ hnames' _) hh
  have hchains := chain_of_names h hsib _ root _ hd₁ hd₂ hlists
  have := (List.append_inj' hchains rfl).2
  exact hne (List.singleton_inj.1 this)

theorem root_condition_differs (name path : String) (hn : noSpace name) :
    "-n '__fish_" ++ name ++ "_no_subcommand'" ≠
      "-n '__fish_seen_subcommand_from " ++ path ++ "'" := by
  intro hh
  have e : "-n '__fish_seen_subcommand_from " = "-n '__fish_" ++ "seen_subcommand_from " := by
    decide
  rw [e] at hh
  have hd := congrArg String.data hh
  simp only [String.data_append, List.append_assoc] at hd
  have hd' := List.append_cancel_left hd
  have hmem : spaceChar ∈ "seen_subcommand_from ".data ++ (path.data ++ "'".data) := by
    apply List.mem_append_left
    decide
  rw [← hd'] at hmem
  rcases List.mem_append.1 hmem with hm | hm
  · exact hn hm
  · exact absurd hm (by decide)

/-- C19. In a well-formed tree in which no command name holds a space and the
subcommands that one command lists have pairwise distinct names, two distinct
commands, each the root or descending from it, have distinct flag-listing
conditions; when neither is the root, their paths `subCommandPath` differ. -/
theorem completionCondition_injective (h : Heap) (depth pathFuel : Nat) (root n₁ n₂ : Ptr)
    (above₁ above₂ : List Ptr) (hwf : wellFormed h depth root = true)
    (hpf : depth ≤ pathFuel) (hnames : ∀ p, noSpace (h p).Name)
    (hsib : distinctSiblingNames h)
    (hr₁ : n₁ = root ∨ descends h root (above₁ ++ [n₁]) = true)
    (hr₂ : n₂ = root ∨ descends h root (above₂ ++ [n₂]) = true) (hne : n₁ ≠ n₂) :
    (∃ c₁ c₂, completionCondition h pathFuel root n₁ = .ok c₁ ∧
      completionCondition h pathFuel root n₂ = .ok c₂ ∧ c₁ ≠ c₂) ∧
    (n₁ ≠ root → n₂ ≠ root →
      ∃ p₁ p₂, subCommandPath h pathFuel root n₁ = .ok p₁ ∧
        subCommandPath h pathFuel root n₂ = .ok p₂ ∧ p₁ ≠ p₂) := by
  have hroot : completionCondition h pathFuel root root =
      .ok ("-n '__fish_" ++ (h root).Name ++ "_no_subcommand'") := by
    rw [completionCondition_eq]; simp
  have hdesc : ∀ (above : List Ptr) (n : Ptr), descends h root (above ++ [n]) = true →
      n ≠ root ∧
      subCommandPath h pathFuel root n =
        .ok (String.intercalate " " ((above ++ [n]).map (fun a => (h a).Name))) ∧
      completionCondition h pathFuel root n =
        .ok ("-n '__fish_seen_subcommand_from " ++
          String.intercalate " " ((above ++ [n]).map (fun a => (h a).Name)) ++ "'") := by
    intro above n hd
    have hn : n ≠ root := fun hh =>
      wellFormed_not_mem h depth root (above ++ [n]) hwf hd (by simp [hh])
    have hp := subCommandPath_of_chain h depth root above n pathFuel hwf hd hpf
    refine ⟨hn, hp, ?_⟩
    rw [completionCondition_eq, if_neg (fun hh => hn hh.symm), hp]
    rfl
  constructor
  · rcases hr₁ with rfl | hd₁
    · rcases hr₂ with rfl | hd₂
      · exact absurd rfl hne
      · obtain ⟨_, _, hc₂⟩ := hdesc above₂ n₂ hd₂
        exact ⟨_, _, hroot, hc₂, root_condition_differs _ _ (hnames n₁)⟩
    · obtain ⟨_, _, hc₁⟩ := hdesc above₁ n₁ hd₁
      rcases hr₂ with rfl | hd₂
      · exact ⟨_, _, hc₁, hroot, fun hh => root_condition_differs _ _ (hnames n₂) hh.symm⟩
      · obtain ⟨_, _, hc₂⟩ := hdesc above₂ n₂ hd₂
        refine ⟨_, _, hc₁, hc₂, ?_⟩
        intro hh
        have hd := congrArg String.data hh
        simp only [String.data_append, List.append_assoc] at hd
        have hd' := List.append_cancel_right (List.append_cancel_left hd)
        exact paths_differ h root above₁ above₂ n₁ n₂ hnames hsib hd₁ hd₂ hne
          (String.ext hd')
  · intro h₁ h₂
    rcases hr₁ with rfl | hd₁
    · exact absurd rfl h₁
    · rcases hr₂ with rfl | hd₂
      · exact absurd rfl h₂
      · exact ⟨_, _, (hdesc above₁ n₁ hd₁).2.1, (hdesc above₂ n₂ hd₂).2.1,
          paths_differ h root above₁ above₂ n₁ n₂ hnames hsib hd₁ hd₂ hne⟩

theorem noSpace_toolTree : ∀ p, noSpace (toolTree p).Name := by
  unfold noSpace
  intro p
  match p with
  | 0 => decide
  | 1 => decide
  | 2 => decide
  | 3 => decide
  | 4 => decide
  | 5 => decide
  | n + 6 =>
    have e : toolTree (n + 6) = noCommand := rfl
    rw [e]
    decide

theorem distinctSiblingNames_toolTree : distinctSiblingNames toolTree := by
  have key : ∀ p, ∀ a, a ∈ (toolTree p).Commands → ∀ b, b ∈ (toolTree p).Commands →
      (toolTree a).Name = (toolTree b).Name → a = b := by
    intro p
    match p with
    | 0 => decide
    | 1 => decide
    | 2 => decide
    | 3 => decide
    | 4 => decide
    | 5 => decide
    | n + 6 =>
      have e : toolTree (n + 6) = noCommand := rfl
      rw [e]
      intro a ha
      simp [noCommand] at ha
  exact fun p a b ha hb => key p a ha b hb

/-- The flag-listing conditions of `add` and `build` in `toolTree`. -/
theorem completionCondition_injective_witness :
    wellFormed toolTree 3 0 = true ∧ (∀ p, noSpace (toolTree p).Name) ∧
    distinctSiblingNames toolTree ∧ descends toolTree 0 ([1] ++ [5]) = true ∧
    descends toolTree 0 ([] ++ [3]) = true ∧
    completionCondition toolTree 3 0 5 = .ok "-n '__fish_seen_subcommand_from remote add'" ∧
    completionCondition toolTree 3 0 3 = .ok "-n '__fish_seen_subcommand_from build'" ∧
    ∃ c₁ c₂, completionCondition toolTree 3 0 5 = .ok c₁ ∧
      completionCondition toolTree 3 0 3 = .ok c₂ ∧ c₁ ≠ c₂ :=
  ⟨rfl, noSpace_toolTree, distinctSiblingNames_toolTree, rfl, rfl, rfl, rfl,
    (completionCondition_injective toolTree 3 3 0 5 3 [1] [] rfl (le_refl _) noSpace_toolTree
      distinctSiblingNames_toolTree (Or.inr rfl) (Or.inr rfl) (by decide)).1⟩

end FishCompletions
